import Mathlib

/-!
Shallow embedding of the `bast-routing-homework` repository (src/src/lib.rs and
src/src/road_network.rs) together with proofs about the embedded operations.

Modelling conventions:
* Rust `i64` node ids become `Int` (ids are only compared, never overflowed);
  the sentinel target `-1` is representable.
* Rust `u32` edge costs become `Nat` values; where the source performs `u32`
  arithmetic that can overflow, the reduction `% 2 ^ 32` is written explicitly
  (release-mode wrapping semantics; debug builds would panic at the same inputs).
* `HashMap`/`HashSet` become association lists / lists.  Hash iteration order is
  nondeterministic in Rust; the embedding fixes list order.  All the proved
  statements are order-independent unless noted otherwise.
* The fallible parts (the `unwrap` calls in
  `transform_landmark_db_into_heuristic`) return `Option`, with `none` standing
  for a panic.
* Floating-point speed arithmetic in `read_from_osm_file` is modelled with
  exact rationals; the divergences proved about it are far larger than any
  `f32`/`f64` rounding error.
-/

namespace BastRouting

/-- The modulus of Rust's `u32` arithmetic. -/
def U32 : Nat := 2 ^ 32

/-- `enum BastPriorityValue { Infinity, Some(u32) }` from lib.rs. -/
inductive BastPriorityValue : Type where
  | Infinity : BastPriorityValue
  | Some : Nat → BastPriorityValue
deriving DecidableEq, Repr

namespace BastPriorityValue

/-- `impl Add for BastPriorityValue` (lib.rs lines 98-110).  The source uses the
plain `a + b` on `u32`, which wraps in release builds (and panics in debug
builds); the wrap is the explicit `% U32` here.  It does NOT saturate. -/
def add : BastPriorityValue → BastPriorityValue → BastPriorityValue
  | Infinity, _ => Infinity
  | Some _, Infinity => Infinity
  | Some a, Some b => Some ((a + b) % U32)

/-- The `Ord` instance (lib.rs lines 118-128): every finite value is below
`Infinity`, finite values compare numerically.  Boolean strict comparison. -/
def blt : BastPriorityValue → BastPriorityValue → Bool
  | Infinity, _ => false
  | Some _, Infinity => true
  | Some a, Some b => a < b

/-- Boolean non-strict comparison derived from the same `Ord` instance. -/
def ble : BastPriorityValue → BastPriorityValue → Bool
  | Infinity, Infinity => true
  | Infinity, Some _ => false
  | Some _, Infinity => true
  | Some a, Some b => a ≤ b

/-- The custom `max` of the `Ord` impl (lib.rs lines 130-142). -/
def bmax : BastPriorityValue → BastPriorityValue → BastPriorityValue
  | Infinity, _ => Infinity
  | _, Infinity => Infinity
  | Some a, Some b => if a > b then Some a else Some b

end BastPriorityValue

/-- Association-list lookup, standing for `HashMap::get` with `Int` keys. -/
def alookup {α : Type} : List (Int × α) → Int → Option α
  | [], _ => none
  | (k, v) :: rest, key => if k = key then some v else alookup rest key

/-- Association-list insert-or-replace, standing for `HashMap::insert`
(and for `priority_queue`'s `push`, which updates the priority of an
existing item). -/
def ainsert {α : Type} : List (Int × α) → Int → α → List (Int × α)
  | [], key, val => [(key, val)]
  | (k, v) :: rest, key, val =>
      if k = key then (key, val) :: rest else (k, v) :: ainsert rest key val

/-- `struct RoadNetwork` from road_network.rs: a node set and an adjacency map
`node → (neighbour → u32 cost)`. -/
structure RoadNetwork : Type where
  nodes : List Int
  edges : List (Int × List (Int × Nat))
deriving DecidableEq, Repr

/-- The cost stored on the directed adjacency entry `u → v`, if present. -/
def edgeCost (g : RoadNetwork) (u v : Int) : Option Nat :=
  match alookup g.edges u with
  | none => none
  | some l => alookup l v

/-- `speed_from_way_kmh` (road_network.rs lines 19-47), keyed by the value of
the `highway` tag. -/
def speed_from_way_kmh (highway : Option String) : Option Nat :=
  match highway with
  | some tag =>
      if tag = "motorway" then some 110
      else if tag = "trunk" then some 110
      else if tag = "primary" then some 70
      else if tag = "secondary" then some 60
      else if tag = "tertiary" then some 50
      else if tag = "motorway_link" then some 50
      else if tag = "trunk_link" then some 50
      else if tag = "primary_link" then some 50
      else if tag = "secondary_link" then some 50
      else if tag = "road" then some 40
      else if tag = "unclassified" then some 40
      else if tag = "residential" then some 30
      else if tag = "unsurfaced" then some 30
      else if tag = "living_street" then some 10
      else if tag = "service" then some 5
      else none
  | none => none

/-- The edge cost stored by `read_from_osm_file` for a way segment
(lib.rs lines 399-454), with `f32`/`f64` arithmetic modelled by exact
rationals.  The km/h → m/s factor `5/18` is applied TWICE: once when the
`SimplifiedWay` is built (line 400) and once again when the cost is computed
(lines 452-453).  The final `as u32` cast truncates toward zero. -/
def storedEdgeCost (distance_m : ℚ) (speed_kmh : Nat) : Nat :=
  let highway_speed_m_per_s : ℚ := (speed_kmh : ℚ) * (5 / 18)
  let speed_metres_per_second : ℚ := highway_speed_m_per_s * (5 / 18)
  min (⌊distance_m / speed_metres_per_second⌋).toNat (U32 - 1)

/-- Modelled from the spec: the specified edge-cost formula, which converts
km/h to m/s exactly once (spec sections 4.2 and 9). -/
def specEdgeCost (distance_m : ℚ) (speed_kmh : Nat) : Nat :=
  min (⌊distance_m / ((speed_kmh : ℚ) * (5 / 18))⌋).toNat (U32 - 1)

/-- A heuristic table, `HashMap<i64, BastPriorityValue>` in the source. -/
abbrev HeuristicTable : Type := List (Int × BastPriorityValue)

open BastPriorityValue in
/-- The mutable state of the `compute_shortest_path` loop: the priority queue
`pq`, the distance map `distances` and the predecessor map `prev`
(lib.rs lines 252-259).  `DoublePriorityQueue` holds at most one entry per
item, so it is also a finite map from node to priority. -/
structure SearchState : Type where
  pq : List (Int × BastPriorityValue)
  dist : List (Int × BastPriorityValue)
  prev : List (Int × Option Int)
deriving DecidableEq, Repr

open BastPriorityValue

/-- `DoublePriorityQueue::pop_min`: remove and return an entry with the least
priority.  Rust's tie-break among equal priorities is unspecified; the
embedding removes the leftmost minimal entry.  None of the proved statements
depends on the tie-break. -/
def popMin : List (Int × BastPriorityValue) →
    Option ((Int × BastPriorityValue) × List (Int × BastPriorityValue))
  | [] => none
  | x :: xs =>
      match popMin xs with
      | none => some (x, [])
      | some (m, rest) => if ble x.2 m.2 then some (x, xs) else some (m, x :: rest)

/-- The value first written to `distances[source]` (lib.rs lines 261-273):
the source writes `Some(0)` and immediately overwrites it with the heuristic
value of the source when a heuristic table is attached (falling back to 0 when
the table has no entry for the source). -/
def initDistVal (heuristic : Option HeuristicTable) (source : Int) : BastPriorityValue :=
  match heuristic with
  | none => Some 0
  | some table =>
      match alookup table source with
      | some initial_value => initial_value
      | none => Some 0

/-- The initial search state (lib.rs lines 252-284): one queue entry
`(source, 0)`, the source's distance, and `prev` seeded with `None` for every
other graph node. -/
def initState (g : RoadNetwork) (heuristic : Option HeuristicTable)
    (source : Int) : SearchState :=
  { pq := [(source, Some 0)]
    dist := [(source, initDistVal heuristic source)]
    prev := (g.nodes.filter (fun n => ¬ n = source)).map (fun n => (n, none)) }

/-- The distance the loop reads for a node: the stored value, `Infinity` when
absent (lib.rs lines 300-303 and 308-311). -/
def distOf (dist : List (Int × BastPriorityValue)) (v : Int) : BastPriorityValue :=
  match alookup dist v with
  | some d => d
  | none => Infinity

/-- The priority pushed for an improved neighbour (lib.rs lines 323-330):
`alt`, plus the neighbour's heuristic value when a table is attached. -/
def queueVal (heuristic : Option HeuristicTable) (alt : BastPriorityValue)
    (v : Int) : BastPriorityValue :=
  match heuristic with
  | none => alt
  | some table =>
      match alookup table v with
      | none => alt
      | some heuristic_for_neighbour => add alt heuristic_for_neighbour

/-- One iteration of the inner `for v in neighbours` loop
(lib.rs lines 296-334): recompute `u`'s distance, form the tentative distance
`alt` with the wrapping addition, and on improvement record the predecessor,
store `alt`, and push `v` with priority `queueVal`. -/
def relaxEdge (heuristic : Option HeuristicTable) (u : Int)
    (st : SearchState) (vw : Int × Nat) : SearchState :=
  let alt : BastPriorityValue := add (distOf st.dist u) (Some vw.2)
  if blt alt (distOf st.dist vw.1) then
    { pq := ainsert st.pq vw.1 (queueVal heuristic alt vw.1)
      dist := ainsert st.dist vw.1 alt
      prev := ainsert st.prev vw.1 (some u) }
  else st

/-- Relax every adjacency entry of the popped node `u`, in order
(lib.rs lines 294-335); a node absent from `edges` has no neighbours. -/
def relaxAll (g : RoadNetwork) (heuristic : Option HeuristicTable)
    (u : Int) (st : SearchState) : SearchState :=
  match alookup g.edges u with
  | none => st
  | some neighbours => neighbours.foldl (relaxEdge heuristic u) st

/-- The main loop (lib.rs lines 287-337), indexed by fuel.  `none` means the
fuel ran out; `searchLoop_reaches_empty` below shows the fuel bound used by
`compute_shortest_path` always suffices, so the loop is a faithful rendering
of the source's `while !pq.is_empty()`. -/
def searchLoop (g : RoadNetwork) (heuristic : Option HeuristicTable) :
    Nat → SearchState → Option SearchState
  | 0, _ => none
  | n + 1, st =>
      match popMin st.pq with
      | none => some st
      | some (u, pq') => searchLoop g heuristic n (relaxAll g heuristic u.1 { st with pq := pq' })

/-- All node ids the loop can ever touch: the source plus every adjacency key
and every neighbour id. -/
def touched (g : RoadNetwork) (source : Int) : List Int :=
  source :: g.edges.foldr (fun e acc => e.1 :: e.2.map Prod.fst ++ acc) []

/-- The contribution of one node to the termination measure: its stored finite
distance, capped at `U32`; missing or infinite entries count as `U32`. -/
def distVal (dist : List (Int × BastPriorityValue)) (v : Int) : Nat :=
  match alookup dist v with
  | some (Some c) => min c U32
  | _ => U32

/-- Termination measure of the loop: twice the capped distance sum plus the
queue length.  Every relaxation that fires lowers a stored distance (capped)
while enlarging the queue by at most one entry, and every pop shrinks the
queue, so the measure strictly decreases at every loop iteration. -/
def searchMeasure (g : RoadNetwork) (source : Int) (st : SearchState) : Nat :=
  2 * ((touched g source).map (distVal st.dist)).sum + st.pq.length

/-- Fuel that `searchLoop_reaches_empty` proves sufficient. -/
def fuelFor (g : RoadNetwork) (heuristic : Option HeuristicTable) (source : Int) : Nat :=
  searchMeasure g source (initState g heuristic source) + 1

/-- `DijkstrasAlgorithm::compute_shortest_path` (lib.rs lines 240-360) minus
the round bookkeeping (modelled separately in `Engine.runSearch`): run the
loop, then return the target's cost (defaulting to `Infinity`) together with
the whole distance map.  The `none` fallback of the fuel-indexed loop is dead
code by `searchLoop_reaches_empty`. -/
def compute_shortest_path (g : RoadNetwork) (heuristic : Option HeuristicTable)
    (source target : Int) : BastPriorityValue × List (Int × BastPriorityValue) :=
  match searchLoop g heuristic (fuelFor g heuristic source) (initState g heuristic source) with
  | none => (Infinity, [])
  | some st =>
      (match alookup st.dist target with
       | some target_cost => target_cost
       | none => Infinity,
       st.dist)

/-- The fields of `struct DijkstrasAlgorithm` (lib.rs lines 20-26). -/
structure Engine : Type where
  graph : RoadNetwork
  visited_node_marks : List (Int × Nat)
  number_of_completed_rounds : Nat
  heuristic : Option HeuristicTable
deriving DecidableEq, Repr

/-- The engine as built in the tests (lib.rs lines 528-548, 574-589): every
graph node carries the visited mark 0 and no round has completed. -/
def mkEngine (g : RoadNetwork) (heuristic : Option HeuristicTable) : Engine :=
  { graph := g
    visited_node_marks := g.nodes.map (fun n => (n, 0))
    number_of_completed_rounds := 0
    heuristic := heuristic }

/-- The round bookkeeping wrapped around the search (lib.rs lines 245-250 and
341-350): bump the round counter, mark the source, run the search, then mark
every node holding a finite distance with the current round. -/
def Engine.runSearch (e : Engine) (source target : Int) :
    Engine × (BastPriorityValue × List (Int × BastPriorityValue)) :=
  let round := e.number_of_completed_rounds + 1
  let marks1 := ainsert e.visited_node_marks source round
  let result := compute_shortest_path e.graph e.heuristic source target
  let marks2 := result.2.foldl
    (fun m entry =>
      match entry.2 with
      | Some _ => ainsert m entry.1 round
      | Infinity => m)
    marks1
  ({ e with visited_node_marks := marks2, number_of_completed_rounds := round }, result)

/-- Run a list of `(source, target)` queries on an engine, in order. -/
def Engine.runMany (e : Engine) : List (Int × Int) → Engine
  | [] => e
  | q :: qs => (Engine.runSearch e q.1 q.2).1.runMany qs

/-- Is this node kept by the deletion loop of
`reduce_to_largest_connected_component`?  A node is deleted exactly when the
marks map holds a round for it different from the dominant round. -/
def keepMark (marks : List (Int × Nat)) (dominant : Nat) (n : Int) : Bool :=
  match alookup marks n with
  | some round => round = dominant
  | none => true

/-- The deletion phase of `reduce_to_largest_connected_component`
(lib.rs lines 177-184), parameterised by the marks map and the dominant round
returned by `find_largest_connected_component`: every node whose mark differs
from the dominant round is removed from `edges` (as a key) and from `nodes`.
The source iterates the marks map removing ids one at a time; the removals
commute, so the embedding filters both maps. -/
def reduceWith (g : RoadNetwork) (marks : List (Int × Nat)) (dominant : Nat) : RoadNetwork :=
  { nodes := g.nodes.filter (keepMark marks dominant)
    edges := g.edges.filter (fun e => keepMark marks dominant e.1) }

/-- `u32::abs_diff`. -/
def u32AbsDiff (a b : Nat) : Nat := max a b - min a b

/-- One term of the landmark maximum (lib.rs lines 72-81): both lookups go
through `unwrap`, so a node absent from the landmark's table is a panic
(`none`); two finite distances contribute their absolute difference and any
stored `Infinity` contributes `Some 0`. -/
def landmarkTerm (arr : List (Int × BastPriorityValue)) (source target : Int) :
    Option BastPriorityValue :=
  match alookup arr source, alookup arr target with
  | some distance_lu, some distance_tu =>
      some (match distance_lu, distance_tu with
        | Some lu, Some tu => Some (u32AbsDiff lu tu)
        | _, _ => Some 0)
  | _, _ => none

/-- `Iterator::max` over the landmark terms: `none` on an empty database
(whose `unwrap` is the second panic site of the source, lib.rs line 82). -/
def listMax : List BastPriorityValue → Option BastPriorityValue
  | [] => none
  | x :: xs =>
      match listMax xs with
      | none => some x
      | some m => some (bmax x m)

/-- Effectful map over a list in the `Option` monad, written with structural
recursion (`none` propagates a panic of the mapped function). -/
def omapM {α β : Type} (f : α → Option β) : List α → Option (List β)
  | [] => some []
  | a :: l =>
      match f a, omapM f l with
      | some b, some bs => some (b :: bs)
      | _, _ => none

/-- The heuristic value `transform_landmark_db_into_heuristic` computes for a
single graph node: the `Iterator::max` of the landmark terms, `none` when a
term or the final `unwrap` of `max` panics. -/
def heuristicValueFor (landmark_database : List (Int × List (Int × BastPriorityValue)))
    (source target : Int) : Option BastPriorityValue :=
  (omapM (fun la => landmarkTerm la.2 source target) landmark_database).bind listMax

/-- `transform_landmark_db_into_heuristic` (lib.rs lines 62-85): for every
graph node, the maximum landmark term.  `none` models a panic of either
`unwrap`. -/
def transform_landmark_db_into_heuristic (road_network : RoadNetwork)
    (landmark_database : List (Int × List (Int × BastPriorityValue)))
    (target : Int) : Option (List (Int × BastPriorityValue)) :=
  omapM (fun source =>
      (heuristicValueFor landmark_database source target).map (fun m => (source, m)))
    road_network.nodes

/-- `precompute_landmark_distances` (lib.rs lines 29-60): take the first
`number_of_landmarks` nodes (hash order in the source, list order here) and
store each landmark's full distance map from a target-`-1` search. -/
def precompute_landmark_distances (g : RoadNetwork) (number_of_landmarks : Nat) :
    List (Int × List (Int × BastPriorityValue)) :=
  (g.nodes.take number_of_landmarks).map
    (fun landmark => (landmark, (compute_shortest_path g none landmark (-1)).2))

/-! Specification-side notions used to state the claims: directed walks in the
adjacency structure and true shortest-path distances. -/

/-- `Walk g u t c`: there is a walk from `u` to `t` along stored adjacency
entries whose costs add up (in `Nat`, without wrapping) to `c`. -/
inductive Walk (g : RoadNetwork) : Int → Int → Nat → Prop where
  | nil (u : Int) : Walk g u u 0
  | cons {u v t : Int} {w c : Nat} :
      edgeCost g u v = some w → Walk g v t c → Walk g u t (w + c)

/-- `c` is the true (mathematical, non-wrapping) shortest-path cost from `s`
to `v`. -/
def IsMinDist (g : RoadNetwork) (s v : Int) (c : Nat) : Prop :=
  Walk g s v c ∧ ∀ c2, Walk g s v c2 → c ≤ c2

/-- A landmark table whose finite entries are true shortest-path distances
from the landmark (what "computed from true shortest-path distances" means). -/
def TableExact (g : RoadNetwork) (landmark : Int)
    (table : List (Int × BastPriorityValue)) : Prop :=
  ∀ v c, alookup table v = some (Some c) → IsMinDist g landmark v c

/-- The largest cost stored on any adjacency entry of the graph. -/
def maxEdgeCost (g : RoadNetwork) : Nat :=
  g.edges.foldr (fun e acc => e.2.foldr (fun q a2 => max q.2 a2) acc) 0

/-- The no-overflow side condition of the amended claim C1: every value the
search stores is below `maxEdgeCost g * |dist|`, and `|dist|` never exceeds
the number of touchable nodes, so under this bound no `u32` addition of the
run ever wraps. -/
def NoOverflow (g : RoadNetwork) (source : Int) : Prop :=
  maxEdgeCost g * ((touched g source).length + 1) < U32

/-- Adjacency lists mirror `HashMap` contents, so their keys are distinct. -/
def InnerNodup (g : RoadNetwork) : Prop :=
  ∀ p ∈ g.edges, (p.2.map Prod.fst).Nodup

/-- Loop invariant shared by the termination/exhaustion and the correctness
arguments.  `settled`: a node that holds a distance and is out of the queue
has had all its adjacency entries relaxed against its current distance. -/
structure BaseInv (g : RoadNetwork) (s : Int) (st : SearchState) : Prop where
  fin : ∀ v p, alookup st.dist v = some p → p ≠ Infinity
  srcP : (alookup st.dist s).isSome
  keysT : ∀ p ∈ st.dist, p.1 ∈ touched g s
  distNodup : (st.dist.map Prod.fst).Nodup
  pqNodup : (st.pq.map Prod.fst).Nodup
  pqDist : ∀ x, (alookup st.pq x).isSome → (alookup st.dist x).isSome
  settled : ∀ u cu, alookup st.dist u = some (Some cu) → alookup st.pq u = none →
    ∀ l, alookup g.edges u = some l → ∀ q ∈ l,
      ∃ cv, alookup st.dist q.1 = some (Some cv) ∧ cv ≤ cu + q.2

/-- Additional invariant for the heuristic-free search under `NoOverflow`:
the source keeps distance 0, every stored distance dominates the cost of
some real walk, and stored distances stay small enough that no addition
wraps. -/
structure ExactInv (g : RoadNetwork) (s : Int) (st : SearchState) : Prop where
  src0 : alookup st.dist s = some (Some 0)
  lower : ∀ v c, alookup st.dist v = some (Some c) →
    ∃ cw, Walk g s v cw ∧ cw ≤ c
  bound : ∀ v c, alookup st.dist v = some (Some c) →
    c ≤ maxEdgeCost g * st.dist.length

/-- The fields of `BaseInv` that do not mention settledness; used while a
popped node's adjacency list is being folded over. -/
structure PreInv (g : RoadNetwork) (s : Int) (st : SearchState) : Prop where
  fin : ∀ v p, alookup st.dist v = some p → p ≠ Infinity
  srcP : (alookup st.dist s).isSome
  keysT : ∀ p ∈ st.dist, p.1 ∈ touched g s
  distNodup : (st.dist.map Prod.fst).Nodup
  pqNodup : (st.pq.map Prod.fst).Nodup
  pqDist : ∀ x, (alookup st.pq x).isSome → (alookup st.dist x).isSome

/-- Settledness of every node other than the one being relaxed. -/
def SettledExcept (g : RoadNetwork) (st : SearchState) (u : Int) : Prop :=
  ∀ x cx, x ≠ u → alookup st.dist x = some (Some cx) → alookup st.pq x = none →
    ∀ l, alookup g.edges x = some l → ∀ q ∈ l,
      ∃ cv, alookup st.dist q.1 = some (Some cv) ∧ cv ≤ cx + q.2

/-- Partial closure of the node `u` being relaxed, over the adjacency prefix
already processed: unless `u` was pushed back into the queue, its distance is
finite and every processed entry has been relaxed against it. -/
def UClose (st : SearchState) (u : Int) (processed : List (Int × Nat)) : Prop :=
  alookup st.pq u = none →
    ∃ cu, alookup st.dist u = some (Some cu) ∧
      ∀ q ∈ processed, ∃ cv, alookup st.dist q.1 = some (Some cv) ∧ cv ≤ cu + q.2

/-! Definitions for the visited-round bookkeeping (claim C9). -/

/-- Does this priority value denote a finite distance? -/
def isFiniteB : BastPriorityValue → Bool
  | Some _ => true
  | Infinity => false

/-- Did the query `q` (source, target) reach node `v`?  The source is always
marked, and so is every node holding a finite distance in the returned map
(lib.rs lines 248-249 and 341-350). -/
def reachedB (g : RoadNetwork) (heuristic : Option HeuristicTable)
    (q : Int × Int) (v : Int) : Bool :=
  v == q.1 ||
    (compute_shortest_path g heuristic q.1 q.2).2.any
      (fun e => e.1 == v && isFiniteB e.2)

/-- The round number of the last query in `qs` that reaches `v`, where the
first query of `qs` runs as round `base + 1`. -/
def lastReachedRound (g : RoadNetwork) (heuristic : Option HeuristicTable) :
    List (Int × Int) → Nat → Int → Option Nat
  | [], _, _ => none
  | q :: qs, base, v =>
      match lastReachedRound g heuristic qs (base + 1) v with
      | some r => some r
      | none => if reachedB g heuristic q v then some (base + 1) else none

/-! Concrete inputs used by the counterexamples and witnesses. -/

/-- The spec's G1 graph with A,B,C,D as 1,2,3,4: edges A-B=3, B-C=4, C-D=2,
A-D=10 (undirected, so both directed entries are stored). -/
def G1 : RoadNetwork :=
  { nodes := [1, 2, 3, 4]
    edges := [ (1, [(2, 3), (4, 10)]),
               (2, [(1, 3), (3, 4)]),
               (3, [(2, 4), (4, 2)]),
               (4, [(3, 2), (1, 10)]) ] }

/-- A chain 1-2-3 whose two edges cost `2^31` each: the true 1→3 cost is
`2^32`, but the wrapping `u32` addition folds it to 0. -/
def GWrap : RoadNetwork :=
  { nodes := [1, 2, 3]
    edges := [ (1, [(2, 2 ^ 31)]),
               (2, [(1, 2 ^ 31), (3, 2 ^ 31)]),
               (3, [(2, 2 ^ 31)]) ] }

/-- Two nodes joined by an edge of cost 1. -/
def GPair : RoadNetwork :=
  { nodes := [1, 2]
    edges := [ (1, [(2, 1)]), (2, [(1, 1)]) ] }

/-- The heuristic table `transform_landmark_db_into_heuristic` derives on
`GPair` from the landmark database of landmark 1 with target 2. -/
def HPair : HeuristicTable := [(1, Some 1), (2, Some 0)]

/-- A landmark database for claim C8 whose only table has no entry for
node 2. -/
def DbMiss : List (Int × List (Int × BastPriorityValue)) := [(1, [(1, Some 0)])]

/-- A single-node graph with no edges (node id 5). -/
def GSingle : RoadNetwork := { nodes := [5], edges := [] }

/-- A single-node graph with no edges (node id 1), used as a tiny witness
input for the landmark-heuristic statements. -/
def GSolo : RoadNetwork := { nodes := [1], edges := [] }

/-- The exact landmark table of `GSolo` for landmark 1. -/
def TSolo : List (Int × BastPriorityValue) := [(1, Some 0)]

/-- Witness graph for the pruning claim: component 1-2 (edge cost 5) and the
isolated node 3. -/
def GComp : RoadNetwork :=
  { nodes := [1, 2, 3]
    edges := [ (1, [(2, 5)]), (2, [(1, 5)]) ] }

/-- Visited marks on `GComp` after component discovery: nodes 1 and 2 were
reached in round 7, node 3 in round 4. -/
def MComp : List (Int × Nat) := [(1, 7), (2, 7), (3, 4)]

/-! ### Association-list lemmas -/

theorem alookup_mem {α : Type} {l : List (Int × α)} {k : Int} {v : α}
    (h : alookup l k = some v) : (k, v) ∈ l := by
  induction l with
  | nil => simp [alookup] at h
  | cons p rest ih =>
      obtain ⟨a, b⟩ := p
      by_cases hk : a = k
      · subst hk
        simp [alookup] at h
        simp [h]
      · simp [alookup, hk] at h
        exact List.mem_cons_of_mem _ (ih h)

theorem alookup_of_mem_nodup {α : Type} {l : List (Int × α)} {k : Int} {v : α}
    (hnd : (l.map Prod.fst).Nodup) (h : (k, v) ∈ l) : alookup l k = some v := by
  induction l with
  | nil => simp at h
  | cons p rest ih =>
      obtain ⟨a, b⟩ := p
      simp only [List.map_cons, List.nodup_cons] at hnd
      rcases List.mem_cons.mp h with heq | hmem
      · cases heq
        simp [alookup]
      · have hak : a ≠ k := by
          intro hak
          subst hak
          exact hnd.1 (List.mem_map.mpr ⟨(a, v), hmem, rfl⟩)
        simp [alookup, hak]
        exact ih hnd.2 hmem

theorem alookup_ainsert_self {α : Type} (l : List (Int × α)) (k : Int) (v : α) :
    alookup (ainsert l k v) k = some v := by
  induction l with
  | nil => simp [ainsert, alookup]
  | cons p rest ih =>
      obtain ⟨a, b⟩ := p
      by_cases hk : a = k
      · subst hk
        simp [ainsert, alookup]
      · simp [ainsert, alookup, hk, ih]

theorem alookup_ainsert_ne {α : Type} (l : List (Int × α)) (k x : Int) (v : α)
    (h : x ≠ k) : alookup (ainsert l k v) x = alookup l x := by
  induction l with
  | nil => simp [ainsert, alookup, Ne.symm h]
  | cons p rest ih =>
      obtain ⟨a, b⟩ := p
      by_cases hk : a = k
      · subst hk
        simp [ainsert, alookup, Ne.symm h]
      · simp [ainsert, alookup, hk, ih]

theorem ainsert_keys_subset {α : Type} (l : List (Int × α)) (k : Int) (v : α) :
    ∀ p ∈ ainsert l k v, p.1 = k ∨ p ∈ l := by
  induction l with
  | nil => simp [ainsert]
  | cons q rest ih =>
      obtain ⟨a, b⟩ := q
      intro p hp
      by_cases hk : a = k
      · subst hk
        simp [ainsert] at hp
        rcases hp with hp | hp
        · exact Or.inl (by simp [hp])
        · exact Or.inr (List.mem_cons_of_mem _ hp)
      · simp [ainsert, hk] at hp
        rcases hp with hp | hp
        · exact Or.inr (by simp [hp])
        · rcases ih p hp with h1 | h1
          · exact Or.inl h1
          · exact Or.inr (List.mem_cons_of_mem _ h1)

theorem ainsert_map_fst_nodup {α : Type} {l : List (Int × α)} (k : Int) (v : α)
    (hnd : (l.map Prod.fst).Nodup) : ((ainsert l k v).map Prod.fst).Nodup := by
  induction l with
  | nil => simp [ainsert]
  | cons q rest ih =>
      obtain ⟨a, b⟩ := q
      simp only [List.map_cons, List.nodup_cons] at hnd
      by_cases hk : a = k
      · subst hk
        simpa [ainsert] using hnd
      · simp only [ainsert, if_neg hk, List.map_cons, List.nodup_cons]
        constructor
        · intro hmem
          rcases List.mem_map.mp hmem with ⟨p, hp, hfst⟩
          rcases ainsert_keys_subset rest k v p hp with h1 | h1
          · exact hk (hfst ▸ h1.symm).symm
          · exact hnd.1 (List.mem_map.mpr ⟨p, h1, hfst⟩)
        · exact ih hnd.2

theorem ainsert_length_le {α : Type} (l : List (Int × α)) (k : Int) (v : α) :
    (ainsert l k v).length ≤ l.length + 1 := by
  induction l with
  | nil => simp [ainsert]
  | cons q rest ih =>
      obtain ⟨a, b⟩ := q
      by_cases hk : a = k
      · subst hk
        simp [ainsert]
      · simp only [ainsert, if_neg hk, List.length_cons]
        omega

theorem ainsert_length_of_lookup_some {α : Type} {l : List (Int × α)} {k : Int}
    (v : α) (h : (alookup l k).isSome) : (ainsert l k v).length = l.length := by
  induction l with
  | nil => simp [alookup] at h
  | cons q rest ih =>
      obtain ⟨a, b⟩ := q
      by_cases hk : a = k
      · subst hk
        simp [ainsert]
      · simp only [alookup, if_neg hk] at h
        simp only [ainsert, if_neg hk, List.length_cons, ih h]

/-! ### Lemmas about `omapM`, `listMax` and the heuristic builder -/

theorem omapM_mem {α β : Type} {f : α → Option β} {l : List α} {bs : List β}
    (h : omapM f l = some bs) : ∀ b ∈ bs, ∃ a ∈ l, f a = some b := by
  induction l generalizing bs with
  | nil =>
      simp [omapM] at h
      subst h
      simp
  | cons a rest ih =>
      simp only [omapM] at h
      cases hfa : f a with
      | none => rw [hfa] at h; exact absurd h (by cases omapM f rest <;> simp)
      | some b0 =>
          rw [hfa] at h
          cases hrest : omapM f rest with
          | none => rw [hrest] at h; simp at h
          | some bs0 =>
              rw [hrest] at h
              simp at h
              subst h
              intro b hb
              rcases List.mem_cons.mp hb with hb | hb
              · exact ⟨a, List.mem_cons_self a rest, hb ▸ hfa⟩
              · rcases ih hrest b hb with ⟨a2, ha2, hfa2⟩
                exact ⟨a2, List.mem_cons_of_mem _ ha2, hfa2⟩

theorem omapM_isSome {α β : Type} {f : α → Option β} {l : List α}
    (h : ∀ a ∈ l, (f a).isSome) : (omapM f l).isSome := by
  induction l with
  | nil => simp [omapM]
  | cons a rest ih =>
      have ha := h a (List.mem_cons_self a rest)
      have hrest := ih (fun x hx => h x (List.mem_cons_of_mem _ hx))
      cases hfa : f a with
      | none => rw [hfa] at ha; simp at ha
      | some b =>
          cases hr : omapM f rest with
          | none => rw [hr] at hrest; simp at hrest
          | some bs => simp [omapM, hfa, hr]

theorem omapM_length {α β : Type} {f : α → Option β} {l : List α} {bs : List β}
    (h : omapM f l = some bs) : bs.length = l.length := by
  induction l generalizing bs with
  | nil => simp [omapM] at h; simp [← h]
  | cons a rest ih =>
      simp only [omapM] at h
      cases hfa : f a with
      | none => rw [hfa] at h; exact absurd h (by cases omapM f rest <;> simp)
      | some b0 =>
          rw [hfa] at h
          cases hrest : omapM f rest with
          | none => rw [hrest] at h; simp at h
          | some bs0 =>
              rw [hrest] at h
              simp at h
              subst h
              simp [ih hrest]

theorem listMax_mem {l : List BastPriorityValue} {m : BastPriorityValue}
    (h : listMax l = some m) : m ∈ l := by
  induction l generalizing m with
  | nil => simp [listMax] at h
  | cons x rest ih =>
      simp only [listMax] at h
      cases hrest : listMax rest with
      | none =>
          rw [hrest] at h
          simp at h
          simp [h]
      | some m0 =>
          rw [hrest] at h
          simp at h
          subst h
          cases x with
          | Infinity => cases m0 <;> simp [bmax, ih hrest]
          | Some a =>
              cases m0 with
              | Infinity => simp [bmax, ih hrest]
              | Some b =>
                  simp only [bmax]
                  by_cases hab : a > b
                  · simp [hab]
                  · simp only [if_neg hab]
                    exact List.mem_cons_of_mem _ (ih hrest)

/-- Auxiliary form of `transform_lookup`, by induction on the node list. -/
theorem transform_lookup_aux {db : List (Int × List (Int × BastPriorityValue))}
    {T u : Int} {hu : BastPriorityValue} :
    ∀ {ns : List Int} {h : List (Int × BastPriorityValue)},
      omapM (fun source =>
        (heuristicValueFor db source T).map (fun m => (source, m))) ns = some h →
      alookup h u = some hu →
      heuristicValueFor db u T = some hu := by
  intro ns
  induction ns with
  | nil =>
      intro h ht hlu
      simp [omapM] at ht
      subst ht
      simp [alookup] at hlu
  | cons n rest ih =>
      intro h ht hlu
      simp only [omapM] at ht
      cases hv : heuristicValueFor db n T with
      | none => rw [hv] at ht; simp at ht
      | some m =>
          rw [hv] at ht
          cases hrest : omapM (fun source =>
              (heuristicValueFor db source T).map (fun m => (source, m))) rest with
          | none => rw [hrest] at ht; simp at ht
          | some hs0 =>
              rw [hrest] at ht
              simp at ht
              subst ht
              by_cases hn : n = u
              · subst hn
                simp [alookup] at hlu
                subst hlu
                exact hv
              · simp [alookup, hn] at hlu
                exact ih hrest hlu

/-- `transform` output: the entry stored for a node is the heuristic value the
builder computed for that node. -/
theorem transform_lookup {g : RoadNetwork}
    {db : List (Int × List (Int × BastPriorityValue))} {T u : Int}
    {h : List (Int × BastPriorityValue)} {hu : BastPriorityValue}
    (ht : transform_landmark_db_into_heuristic g db T = some h)
    (hlu : alookup h u = some hu) :
    heuristicValueFor db u T = some hu :=
  transform_lookup_aux ht hlu

/-! ### Claim C3: the `Add` instance wraps instead of saturating -/

/-- C3: the claim states that adding two finite `BastPriorityValue`s whose sum
leaves the 32-bit unsigned range saturates to `+∞`.  The source's `Add`
instance uses the plain `u32` addition, which wraps in release builds (and
panics in debug builds): `2^31 + 2^31` yields `Some 0`, not `Infinity`.  The
`Infinity`-absorbing part of the claim does hold.  This theorem evaluates the
embedded addition at the failing input. -/
theorem claim3_add_wraps_at_failing_input :
    BastPriorityValue.add (Some (2 ^ 31)) (Some (2 ^ 31)) = Some 0 ∧
    BastPriorityValue.add (Some (2 ^ 31)) (Some (2 ^ 31)) ≠ Infinity ∧
    BastPriorityValue.add (Some (2 ^ 32 - 1)) (Some 1) = Some 0 ∧
    BastPriorityValue.add Infinity (Some 7) = Infinity ∧
    BastPriorityValue.add (Some 7) Infinity = Infinity := by
  refine ⟨?_, ?_, ?_, rfl, rfl⟩ <;> decide

/-! ### Claim C5: the km/h → m/s conversion is applied twice -/

/-- C5: the claim states the stored edge cost is
`floor(distance / (kmh * 5/18))`, giving 36 seconds for a `highway=service`
way (5 km/h) spanning 50 m.  The source multiplies by `5/18` once when the
way is simplified and once more when the cost is computed, so it stores
`floor(50 / (5 * (5/18)^2)) = 129`.  The speed table itself does map
`service` to 5 km/h as claimed. -/
theorem claim5_speed_conversion_applied_twice :
    speed_from_way_kmh (some "service") = some 5 ∧
    storedEdgeCost 50 5 = 129 ∧
    specEdgeCost 50 5 = 36 ∧
    storedEdgeCost 50 5 ≠ specEdgeCost 50 5 := by
  have h129 : (⌊(50 : ℚ) / ((5 : ℚ) * (5 / 18) * (5 / 18))⌋) = 129 := by norm_num
  have h36 : (⌊(50 : ℚ) / ((5 : ℚ) * (5 / 18))⌋) = 36 := by norm_num
  have hs : storedEdgeCost 50 5 = 129 := by
    simp [storedEdgeCost, h129]
    decide
  have hp : specEdgeCost 50 5 = 36 := by
    simp [specEdgeCost, h36]
    decide
  exact ⟨rfl, hs, hp, by rw [hs, hp]; decide⟩

/-! ### Claim C2: an attached heuristic changes the returned cost -/

/-- C2: the claim states ALT search and plain Dijkstra return the same finite
cost for every reachable pair.  The source initialises `dist[source]` with
the heuristic value of the source (lib.rs lines 263-273) instead of 0, so
every returned cost is offset by `h(source)`.  On the two-node graph `GPair`
with the landmark database of landmark 1 (true distances) and target 2, the
derived heuristic is `HPair` with `h(1) = 1`; the plain search returns cost
1 for the pair (1,2) and the ALT search returns 2. -/
theorem claim2_heuristic_changes_returned_cost :
    precompute_landmark_distances GPair 1 = [(1, [(1, Some 0), (2, Some 1)])] ∧
    transform_landmark_db_into_heuristic GPair
      (precompute_landmark_distances GPair 1) 2 = some HPair ∧
    (compute_shortest_path GPair none 1 2).1 = Some 1 ∧
    (compute_shortest_path GPair (some HPair) 1 2).1 = Some 2 := by
  refine ⟨?_, ?_, ?_, ?_⟩ <;> decide

/-! ### Claim C4: with a heuristic attached, `search(s, s)` is not 0 -/

/-- C4: the claim states `search(s, s, _)` returns cost 0 and a distance map
sending `s` to 0 for every heuristic setting.  This holds with no heuristic,
but with the landmark-derived table `HPair` attached (where `h(1) = 1`) the
source's initialisation `dist[source] := h(source)` makes `search(1, 1)`
return `Some 1`, and the returned map stores 1 for the source. -/
theorem claim4_source_cost_not_zero_with_heuristic :
    (compute_shortest_path GPair none 1 1).1 = Some 0 ∧
    (compute_shortest_path GPair (some HPair) 1 1).1 = Some 1 ∧
    alookup (compute_shortest_path GPair (some HPair) 1 1).2 1 = some (Some 1) ∧
    (Some 1 : BastPriorityValue) ≠ Some 0 := by
  refine ⟨?_, ?_, ?_, ?_⟩ <;> decide

/-! ### Claim C8 counterexample: a missing table entry panics -/

/-- C8 as stated is false: the claim says a landmark whose table lacks a node
(its distance being `+∞`) contributes 0 to the maximum and the heuristic is
still produced.  In the source both lookups go through `unwrap`, so the call
panics instead.  Concretely, on the graph with nodes 1 and 2 and the database
`DbMiss` (landmark 1 knows only node 1), the builder dies at node 2:
the embedding returns `none` where the claim requires a table with finite
entries for both nodes. -/
theorem claim8_counterexample :
    transform_landmark_db_into_heuristic GPair DbMiss 1 = none ∧
    landmarkTerm [(1, Some 0)] 2 1 = none := by
  exact ⟨by decide, by decide⟩

/-! ### Claim C9 counterexample: later rounds overwrite the first-reached mark -/

/-- C9 as stated is false: the claim says a node's visited mark records the
round in which it was FIRST reached and is never changed by later rounds.
The source re-inserts the current round for every reached node on every
search (lib.rs lines 341-350).  Running the same single-node query twice on
`GSingle`: round 1 reaches node 5, yet after round 2 the mark is 2, not 1. -/
theorem claim9_counterexample :
    reachedB GSingle none (5, 5) 5 = true ∧
    (Engine.runMany (mkEngine GSingle none) [(5, 5)]).visited_node_marks
      = [(5, 1)] ∧
    (Engine.runMany (mkEngine GSingle none) [(5, 5), (5, 5)]).visited_node_marks
      = [(5, 2)] ∧
    (2 : Nat) ≠ 1 := by
  refine ⟨?_, ?_, ?_, ?_⟩ <;> decide

/-! ### Claim C9 (amended): marks record the most recent reaching round -/

theorem marks_fold_lookup (l : List (Int × BastPriorityValue))
    (m0 : List (Int × Nat)) (r : Nat) (v : Int) :
    alookup (l.foldl (fun m entry =>
        match entry.2 with
        | Some _ => ainsert m entry.1 r
        | Infinity => m) m0) v =
    (if l.any (fun e => e.1 == v && isFiniteB e.2) then some r else alookup m0 v) := by
  induction l generalizing m0 with
  | nil => simp
  | cons e rest ih =>
      obtain ⟨k, pv⟩ := e
      simp only [List.foldl_cons, List.any_cons]
      cases pv with
      | Infinity =>
          rw [ih]
          simp only [show isFiniteB Infinity = false from rfl, Bool.and_false,
            Bool.false_or]
      | Some c =>
          rw [ih]
          simp only [show isFiniteB (Some c) = true from rfl, Bool.and_true]
          by_cases hv : k = v
          · subst hv
            simp only [beq_self_eq_true, Bool.true_or, if_pos rfl,
              alookup_ainsert_self]
            exact ite_self _
          · simp only [beq_eq_false_iff_ne.mpr hv, Bool.false_or,
              alookup_ainsert_ne m0 k v r (fun hh => hv hh.symm)]

theorem runSearch_marks_lookup (e : Engine) (s t v : Int) :
    alookup (e.runSearch s t).1.visited_node_marks v =
    (if reachedB e.graph e.heuristic (s, t) v
     then some (e.number_of_completed_rounds + 1)
     else alookup e.visited_node_marks v) := by
  show alookup ((compute_shortest_path e.graph e.heuristic s t).2.foldl _
      (ainsert e.visited_node_marks s (e.number_of_completed_rounds + 1))) v = _
  rw [marks_fold_lookup]
  unfold reachedB
  by_cases hany : (compute_shortest_path e.graph e.heuristic s t).2.any
      (fun en => en.1 == v && isFiniteB en.2)
  · simp [hany]
  · by_cases hv : v = s
    · subst hv
      simp [hany, alookup_ainsert_self]
    · simp [hany, hv, alookup_ainsert_ne _ _ _ _ (fun hh => hv hh)]

theorem runMany_marks_lookup (qs : List (Int × Int)) (e : Engine) (v : Int) :
    alookup (e.runMany qs).visited_node_marks v =
    (match lastReachedRound e.graph e.heuristic qs e.number_of_completed_rounds v with
     | some r => some r
     | none => alookup e.visited_node_marks v) := by
  induction qs generalizing e with
  | nil => simp [Engine.runMany, lastReachedRound]
  | cons q qs ih =>
      show alookup ((e.runSearch q.1 q.2).1.runMany qs).visited_node_marks v = _
      rw [ih]
      have hg : (e.runSearch q.1 q.2).1.graph = e.graph := rfl
      have hh : (e.runSearch q.1 q.2).1.heuristic = e.heuristic := rfl
      have hr : (e.runSearch q.1 q.2).1.number_of_completed_rounds =
          e.number_of_completed_rounds + 1 := rfl
      rw [hg, hh, hr]
      have heq : lastReachedRound e.graph e.heuristic (q :: qs)
          e.number_of_completed_rounds v =
          (match lastReachedRound e.graph e.heuristic qs
              (e.number_of_completed_rounds + 1) v with
           | some r => some r
           | none => if reachedB e.graph e.heuristic q v
                     then some (e.number_of_completed_rounds + 1) else none) := rfl
      rw [heq]
      cases hrest : lastReachedRound e.graph e.heuristic qs
          (e.number_of_completed_rounds + 1) v with
      | some r => simp
      | none =>
          simp only
          rw [runSearch_marks_lookup]
          have hpair : (q.1, q.2) = q := rfl
          rw [hpair]
          by_cases hq : reachedB e.graph e.heuristic q v
          · simp [hq]
          · simp [hq]

theorem alookup_map_zero {nodes : List Int} {v : Int} (hv : v ∈ nodes) :
    alookup (nodes.map (fun n => (n, (0 : Nat)))) v = some 0 := by
  induction nodes with
  | nil => simp at hv
  | cons n rest ih =>
      by_cases hn : n = v
      · simp [alookup, hn]
      · rcases List.mem_cons.mp hv with h1 | h1
        · exact absurd h1.symm hn
        · simp [alookup, hn, ih h1]

/-- C9 amended: across any sequence of searches on one engine, a node's
visited mark records the MOST RECENT round that reached it (each search
re-inserts the current round for the source and for every node with a finite
distance), and stays 0 exactly while no search has reached it yet. -/
theorem claim9_amended (g : RoadNetwork) (heuristic : Option HeuristicTable)
    (qs : List (Int × Int)) (v : Int) :
    (∀ r, lastReachedRound g heuristic qs 0 v = some r →
        alookup ((mkEngine g heuristic).runMany qs).visited_node_marks v = some r) ∧
    (lastReachedRound g heuristic qs 0 v = none → v ∈ g.nodes →
        alookup ((mkEngine g heuristic).runMany qs).visited_node_marks v = some 0) := by
  constructor
  · intro r hr
    rw [runMany_marks_lookup]
    have hg : (mkEngine g heuristic).graph = g := rfl
    have hh : (mkEngine g heuristic).heuristic = heuristic := rfl
    have hb : (mkEngine g heuristic).number_of_completed_rounds = 0 := rfl
    rw [hg, hh, hb, hr]
  · intro hr hv
    rw [runMany_marks_lookup]
    have hg : (mkEngine g heuristic).graph = g := rfl
    have hh : (mkEngine g heuristic).heuristic = heuristic := rfl
    have hb : (mkEngine g heuristic).number_of_completed_rounds = 0 := rfl
    rw [hg, hh, hb, hr]
    exact alookup_map_zero hv

/-- Witness for the amended C9 theorem at a concrete input: on the single-node
graph, after the two rounds of `claim9_counterexample`, the recorded mark is
the most recent reaching round, 2. -/
theorem claim9_witness :
    alookup ((mkEngine GSingle none).runMany [(5, 5), (5, 5)]).visited_node_marks 5
      = some 2 :=
  (claim9_amended GSingle none [(5, 5), (5, 5)] 5).1 2 (by decide)

/-! ### Claim C7: pruning to the dominant round preserves the graph invariants -/

theorem alookup_filter_key {α : Type} (l : List (Int × α)) (p : Int → Bool) (k : Int) :
    alookup (l.filter (fun e => p e.1)) k =
    (if p k then alookup l k else none) := by
  induction l with
  | nil => simp [alookup]
  | cons e rest ih =>
      obtain ⟨a, b⟩ := e
      rw [List.filter_cons]
      by_cases hpa : p a = true
      · rw [if_pos hpa]
        by_cases hak : a = k
        · subst hak
          simp [alookup, hpa]
        · simp only [alookup, if_neg hak]
          exact ih
      · rw [if_neg hpa]
        rw [ih]
        by_cases hak : a = k
        · subst hak
          have hfa : p a = false := by simpa using hpa
          simp [alookup, hfa]
        · simp only [alookup, if_neg hak]

/-- C7: the deletion phase of `reduce_to_largest_connected_component` keeps
the graph invariants, provided marks are constant along edges (which
`find_largest_connected_component` guarantees, since every search marks an
entire reachable component with one round): after pruning, every stored
adjacency entry still has its symmetric twin with the same cost, and every
neighbour id occurring in an inner map is still a member of `nodes`. -/
theorem claim7_reduce_preserves_invariants (g : RoadNetwork)
    (marks : List (Int × Nat)) (dominant : Nat)
    (hsym : ∀ p ∈ g.edges, ∀ q ∈ p.2, edgeCost g q.1 p.1 = some q.2)
    (hclosed : ∀ p ∈ g.edges, ∀ q ∈ p.2, q.1 ∈ g.nodes)
    (hconst : ∀ p ∈ g.edges, ∀ q ∈ p.2, alookup marks q.1 = alookup marks p.1) :
    (∀ p ∈ (reduceWith g marks dominant).edges, ∀ q ∈ p.2,
        edgeCost (reduceWith g marks dominant) q.1 p.1 = some q.2) ∧
    (∀ p ∈ (reduceWith g marks dominant).edges, ∀ q ∈ p.2,
        q.1 ∈ (reduceWith g marks dominant).nodes) := by
  have hkeep : ∀ p ∈ g.edges, ∀ q ∈ p.2,
      keepMark marks dominant p.1 = true → keepMark marks dominant q.1 = true := by
    intro p hp q hq hkp
    unfold keepMark at hkp ⊢
    rw [hconst p hp q hq]
    exact hkp
  constructor
  · intro p hp q hq
    have hmem := List.mem_filter.mp hp
    have hkeepq := hkeep p hmem.1 q hq hmem.2
    show edgeCost (reduceWith g marks dominant) q.1 p.1 = some q.2
    have hlk : alookup (reduceWith g marks dominant).edges q.1 =
        alookup g.edges q.1 := by
      show alookup (g.edges.filter (fun e => keepMark marks dominant e.1)) q.1 = _
      rw [alookup_filter_key g.edges (keepMark marks dominant) q.1, if_pos hkeepq]
    have hcg := hsym p hmem.1 q hq
    unfold edgeCost at hcg ⊢
    rw [hlk]
    exact hcg
  · intro p hp q hq
    have hmem := List.mem_filter.mp hp
    have hkeepq := hkeep p hmem.1 q hq hmem.2
    show q.1 ∈ g.nodes.filter (keepMark marks dominant)
    exact List.mem_filter.mpr ⟨hclosed p hmem.1 q hq, hkeepq⟩

/-- Witness for C7 at a concrete input: on `GComp` with marks `MComp` and
dominant round 7, the hypotheses hold by evaluation and the pruned graph
keeps both invariants. -/
theorem claim7_witness :
    (∀ p ∈ (reduceWith GComp MComp 7).edges, ∀ q ∈ p.2,
        edgeCost (reduceWith GComp MComp 7) q.1 p.1 = some q.2) ∧
    (∀ p ∈ (reduceWith GComp MComp 7).edges, ∀ q ∈ p.2,
        q.1 ∈ (reduceWith GComp MComp 7).nodes) :=
  claim7_reduce_preserves_invariants GComp MComp 7
    (by decide) (by decide) (by decide)

/-! ### Claim C8 (amended): the heuristic is finite when every lookup succeeds -/

theorem listMax_finite {l : List BastPriorityValue} (hne : l ≠ [])
    (hfin : ∀ x ∈ l, ∃ c, x = Some c) : ∃ c, listMax l = some (Some c) := by
  induction l with
  | nil => cases hne rfl
  | cons x rest ih =>
      obtain ⟨c, hc⟩ := hfin x (List.mem_cons_self x rest)
      subst hc
      cases hrest : listMax rest with
      | none => exact ⟨c, by simp [listMax, hrest]⟩
      | some m =>
          have hm := listMax_mem hrest
          obtain ⟨cm, hcm⟩ := hfin m (List.mem_cons_of_mem _ hm)
          subst hcm
          refine ⟨if c > cm then c else cm, ?_⟩
          simp only [listMax, hrest, bmax]
          split <;> rfl

theorem transform_lookup_exists {db : List (Int × List (Int × BastPriorityValue))}
    {T u : Int} :
    ∀ {ns : List Int} {h : List (Int × BastPriorityValue)},
      omapM (fun source =>
        (heuristicValueFor db source T).map (fun m => (source, m))) ns = some h →
      u ∈ ns →
      ∃ hu, alookup h u = some hu ∧ heuristicValueFor db u T = some hu := by
  intro ns
  induction ns with
  | nil => intro h _ hu; simp at hu
  | cons n rest ih =>
      intro h ht hu
      simp only [omapM] at ht
      cases hv : heuristicValueFor db n T with
      | none => rw [hv] at ht; simp at ht
      | some m =>
          rw [hv] at ht
          cases hrest : omapM (fun source =>
              (heuristicValueFor db source T).map (fun m => (source, m))) rest with
          | none => rw [hrest] at ht; simp at ht
          | some hs0 =>
              rw [hrest] at ht
              simp at ht
              subst ht
              by_cases hn : n = u
              · subst hn
                exact ⟨m, by simp [alookup], hv⟩
              · rcases List.mem_cons.mp hu with h1 | h1
                · exact absurd h1.symm hn
                · rcases ih hrest h1 with ⟨hu2, hl2, hv2⟩
                  exact ⟨hu2, by simp [alookup, hn, hl2], hv2⟩

/-- C8 amended: `transform_landmark_db_into_heuristic` yields a finite
ExtendedCost for every graph node PROVIDED the landmark database is nonempty
and every landmark table has an entry for every graph node and for the target
(the claim's "absent entry contributes 0" branch is wrong: an absent entry
panics through `unwrap`, as `claim8_counterexample` shows).  A landmark whose
table STORES `Infinity` at `u` or at the target does contribute `Some 0`. -/
theorem claim8_amended (g : RoadNetwork)
    (db : List (Int × List (Int × BastPriorityValue))) (T : Int)
    (hne : db ≠ [])
    (hcov : ∀ p ∈ db, ∀ u ∈ g.nodes, (alookup p.2 u).isSome)
    (hcovT : ∀ p ∈ db, (alookup p.2 T).isSome) :
    (∃ h, transform_landmark_db_into_heuristic g db T = some h ∧
        ∀ u ∈ g.nodes, ∃ c, alookup h u = some (Some c)) ∧
    (∀ arr : List (Int × BastPriorityValue), ∀ u : Int,
        (alookup arr u = some Infinity ∧ (alookup arr T).isSome) ∨
        ((alookup arr u).isSome ∧ alookup arr T = some Infinity) →
        landmarkTerm arr u T = some (Some 0)) := by
  constructor
  · have hval : ∀ u ∈ g.nodes, ∃ c, heuristicValueFor db u T = some (Some c) := by
      intro u hu
      have hterms : (omapM (fun la => landmarkTerm la.2 u T) db).isSome := by
        apply omapM_isSome
        intro p hp
        rcases Option.isSome_iff_exists.mp (hcov p hp u hu) with ⟨du, hdu⟩
        rcases Option.isSome_iff_exists.mp (hcovT p hp) with ⟨dT, hdT⟩
        simp [landmarkTerm, hdu, hdT]
      rcases Option.isSome_iff_exists.mp hterms with ⟨terms, hterms_eq⟩
      have hfin : ∀ x ∈ terms, ∃ c, x = Some c := by
        intro x hx
        rcases omapM_mem hterms_eq x hx with ⟨p, hp, hterm⟩
        rcases Option.isSome_iff_exists.mp (hcov p hp u hu) with ⟨du, hdu⟩
        rcases Option.isSome_iff_exists.mp (hcovT p hp) with ⟨dT, hdT⟩
        simp only [landmarkTerm, hdu, hdT] at hterm
        cases du <;> cases dT <;> simp at hterm <;> exact ⟨_, hterm.symm⟩
      have hlen := omapM_length hterms_eq
      have hterms_ne : terms ≠ [] := by
        intro hnil
        subst hnil
        simp at hlen
        exact hne (List.length_eq_zero.mp hlen.symm)
      rcases listMax_finite hterms_ne hfin with ⟨c, hc⟩
      exact ⟨c, by simp [heuristicValueFor, hterms_eq, hc]⟩
    have htr : (omapM (fun source =>
        (heuristicValueFor db source T).map (fun m => (source, m))) g.nodes).isSome := by
      apply omapM_isSome
      intro u hu
      rcases hval u hu with ⟨c, hc⟩
      simp [hc]
    rcases Option.isSome_iff_exists.mp htr with ⟨h, hh⟩
    refine ⟨h, hh, ?_⟩
    intro u hu
    rcases transform_lookup_exists hh hu with ⟨hu2, hl2, hv2⟩
    rcases hval u hu with ⟨c, hc⟩
    rw [hv2] at hc
    exact ⟨c, by rw [hl2, Option.some_inj.mp hc]⟩
  · intro arr u hcase
    rcases hcase with ⟨hinf, hsomeT⟩ | ⟨hsomeU, hinf⟩
    · rcases Option.isSome_iff_exists.mp hsomeT with ⟨dT, hdT⟩
      cases dT <;> simp [landmarkTerm, hinf, hdT]
    · rcases Option.isSome_iff_exists.mp hsomeU with ⟨du, hdu⟩
      cases du <;> simp [landmarkTerm, hinf, hdu]

/-- Witness for the amended C8 theorem: one landmark whose table stores both
entries; the produced heuristic is finite at the only node. -/
theorem claim8_amended_witness :
    ∃ h, transform_landmark_db_into_heuristic GSolo [(1, TSolo)] 1 = some h ∧
      ∀ u ∈ GSolo.nodes, ∃ c, alookup h u = some (Some c) :=
  (claim8_amended GSolo [(1, TSolo)] 1 (by decide) (by decide) (by decide)).1

/-! ### Claim C6: the landmark heuristic is admissible -/

theorem edgeCost_mem {g : RoadNetwork} {u v : Int} {w : Nat}
    (h : edgeCost g u v = some w) :
    ∃ p ∈ g.edges, p.1 = u ∧ (v, w) ∈ p.2 := by
  unfold edgeCost at h
  cases hl : alookup g.edges u with
  | none => rw [hl] at h; simp at h
  | some l =>
      rw [hl] at h
      exact ⟨(u, l), alookup_mem hl, rfl, alookup_mem h⟩

theorem edgeCost_symm {g : RoadNetwork}
    (hsym : ∀ p ∈ g.edges, ∀ q ∈ p.2, edgeCost g q.1 p.1 = some q.2)
    {u v : Int} {w : Nat} (h : edgeCost g u v = some w) :
    edgeCost g v u = some w := by
  rcases edgeCost_mem h with ⟨p, hp, hu, hq⟩
  have := hsym p hp (v, w) hq
  rw [hu] at this
  exact this

theorem walk_concat {g : RoadNetwork} {a b d : Int} {c1 c2 : Nat}
    (h1 : Walk g a b c1) (h2 : Walk g b d c2) : Walk g a d (c1 + c2) := by
  induction h1 with
  | nil u => simpa using h2
  | cons he hw ih =>
      rw [Nat.add_assoc]
      exact Walk.cons he (ih h2)

theorem walk_reverse {g : RoadNetwork}
    (hsym : ∀ p ∈ g.edges, ∀ q ∈ p.2, edgeCost g q.1 p.1 = some q.2)
    {a b : Int} {c : Nat} (h : Walk g a b c) : Walk g b a c := by
  induction h with
  | nil u => exact Walk.nil u
  | cons he hw ih =>
      have hrev := edgeCost_symm hsym he
      have hone : Walk g _ _ _ := Walk.cons hrev (Walk.nil _)
      have := walk_concat ih hone
      simpa [Nat.add_comm] using this

/-- Triangle inequality for exact distances on a symmetric graph:
`|d(l,u) − d(l,T)| ≤ d(u,T)`. -/
theorem min_dist_triangle {g : RoadNetwork} {l u T : Int} {du dT dut : Nat}
    (hsym : ∀ p ∈ g.edges, ∀ q ∈ p.2, edgeCost g q.1 p.1 = some q.2)
    (hu : IsMinDist g l u du) (hT : IsMinDist g l T dT)
    (hd : IsMinDist g u T dut) :
    u32AbsDiff du dT ≤ dut := by
  have h1 : du ≤ dT + dut := hu.2 _ (walk_concat hT.1 (walk_reverse hsym hd.1))
  have h2 : dT ≤ du + dut := hT.2 _ (walk_concat hu.1 hd.1)
  unfold u32AbsDiff
  omega

/-- C6: on an undirected graph, for landmark tables whose finite entries are
true shortest-path distances, every heuristic value
`transform_landmark_db_into_heuristic` produces is admissible: whenever the
true distance `d(u,T)` is finite, the value stored for `u` is a finite cost
bounded by `d(u,T)`. -/
theorem claim6_heuristic_admissible (g : RoadNetwork)
    (db : List (Int × List (Int × BastPriorityValue))) (T u : Int)
    (h : List (Int × BastPriorityValue)) (dut : Nat) (hu : BastPriorityValue)
    (hsym : ∀ p ∈ g.edges, ∀ q ∈ p.2, edgeCost g q.1 p.1 = some q.2)
    (htab : ∀ p ∈ db, TableExact g p.1 p.2)
    (hd : IsMinDist g u T dut)
    (ht : transform_landmark_db_into_heuristic g db T = some h)
    (hlu : alookup h u = some hu) :
    ∃ c, hu = Some c ∧ c ≤ dut := by
  have hval := transform_lookup ht hlu
  unfold heuristicValueFor at hval
  cases hterms : omapM (fun la => landmarkTerm la.2 u T) db with
  | none => rw [hterms] at hval; simp at hval
  | some terms =>
      rw [hterms] at hval
      simp only [Option.some_bind] at hval
      have hmem := listMax_mem hval
      rcases omapM_mem hterms hu hmem with ⟨p, hp, hterm⟩
      unfold landmarkTerm at hterm
      cases hdu : alookup p.2 u with
      | none => rw [hdu] at hterm; simp at hterm
      | some du0 =>
          cases hdT : alookup p.2 T with
          | none => rw [hdu, hdT] at hterm; simp at hterm
          | some dT0 =>
              rw [hdu, hdT] at hterm
              simp only [Option.some_inj] at hterm
              cases du0 with
              | Infinity =>
                  cases dT0 <;> exact ⟨0, hterm.symm, Nat.zero_le dut⟩
              | Some a =>
                  cases dT0 with
                  | Infinity => exact ⟨0, hterm.symm, Nat.zero_le dut⟩
                  | Some b =>
                      refine ⟨u32AbsDiff a b, hterm.symm, ?_⟩
                      exact min_dist_triangle hsym
                        (htab p hp u a hdu) (htab p hp T b hdT) hd

/-- The single table of `GSolo` is exact: its only entry is the zero distance
of landmark 1 to itself. -/
theorem tsolo_exact : TableExact GSolo 1 TSolo := by
  intro v c hl
  by_cases h1 : (1 : Int) = v
  · subst h1
    have hc : c = 0 := by
      simp [TSolo, alookup] at hl
      exact hl.symm
    subst hc
    exact ⟨Walk.nil 1, fun c2 _ => Nat.zero_le c2⟩
  · simp [TSolo, alookup, h1] at hl

/-- Witness for C6 at a concrete input: on `GSolo` with its exact landmark
table and target 1, the value stored for node 1 is finite and bounded by the
true distance 0. -/
theorem claim6_witness :
    ∃ c, (Some 0 : BastPriorityValue) = Some c ∧ c ≤ 0 :=
  claim6_heuristic_admissible GSolo [(1, TSolo)] 1 1 [(1, Some 0)] 0 (Some 0)
    (by decide)
    (by
      intro p hp
      rw [List.mem_singleton] at hp
      subst hp
      exact tsolo_exact)
    ⟨Walk.nil 1, fun c2 _ => Nat.zero_le c2⟩
    (by decide)
    (by decide)

/-! ### Lemmas about `popMin`, `touched`, `maxEdgeCost` -/

theorem alookup_keys_of_some {α : Type} {l : List (Int × α)} {k : Int} {v : α}
    (h : alookup l k = some v) : k ∈ l.map Prod.fst :=
  List.mem_map.mpr ⟨(k, v), alookup_mem h, rfl⟩

theorem alookup_eq_none_of_not_mem {α : Type} {l : List (Int × α)} {k : Int}
    (h : k ∉ l.map Prod.fst) : alookup l k = none := by
  cases hl : alookup l k with
  | none => rfl
  | some v => exact absurd (alookup_keys_of_some hl) h

theorem popMin_eq_none {l : List (Int × BastPriorityValue)}
    (h : popMin l = none) : l = [] := by
  cases l with
  | nil => rfl
  | cons x xs =>
      simp only [popMin] at h
      cases hp : popMin xs with
      | none => rw [hp] at h; simp at h
      | some pr =>
          obtain ⟨m, rest⟩ := pr
          rw [hp] at h
          by_cases hb : ble x.2 m.2 <;> simp [hb] at h

theorem popMin_mem : ∀ {l : List (Int × BastPriorityValue)}
    {e : Int × BastPriorityValue} {rest : List (Int × BastPriorityValue)},
    popMin l = some (e, rest) → e ∈ l := by
  intro l
  induction l with
  | nil => intro e rest h; simp [popMin] at h
  | cons x xs ih =>
      intro e rest h
      simp only [popMin] at h
      cases hp : popMin xs with
      | none =>
          rw [hp] at h
          simp at h
          obtain ⟨h1, h2⟩ := h
          subst h1
          exact List.mem_cons_self _ _
      | some pr =>
          obtain ⟨m, r⟩ := pr
          rw [hp] at h
          by_cases hb : ble x.2 m.2
          · simp [hb] at h
            obtain ⟨h1, h2⟩ := h
            subst h1
            exact List.mem_cons_self _ _
          · simp [hb] at h
            obtain ⟨h1, h2⟩ := h
            subst h1
            exact List.mem_cons_of_mem _ (ih hp)

theorem popMin_length : ∀ {l : List (Int × BastPriorityValue)}
    {e : Int × BastPriorityValue} {rest : List (Int × BastPriorityValue)},
    popMin l = some (e, rest) → rest.length + 1 = l.length := by
  intro l
  induction l with
  | nil => intro e rest h; simp [popMin] at h
  | cons x xs ih =>
      intro e rest h
      simp only [popMin] at h
      cases hp : popMin xs with
      | none =>
          rw [hp] at h
          simp at h
          obtain ⟨h1, h2⟩ := h
          subst h2
          rw [popMin_eq_none hp]
          rfl
      | some pr =>
          obtain ⟨m, r⟩ := pr
          rw [hp] at h
          by_cases hb : ble x.2 m.2
          · simp [hb] at h
            obtain ⟨h1, h2⟩ := h
            subst h2
            rfl
          · simp [hb] at h
            obtain ⟨h1, h2⟩ := h
            subst h2
            simp only [List.length_cons]
            rw [ih hp]

theorem popMin_sublist : ∀ {l : List (Int × BastPriorityValue)}
    {e : Int × BastPriorityValue} {rest : List (Int × BastPriorityValue)},
    popMin l = some (e, rest) → rest.Sublist l := by
  intro l
  induction l with
  | nil => intro e rest h; simp [popMin] at h
  | cons x xs ih =>
      intro e rest h
      simp only [popMin] at h
      cases hp : popMin xs with
      | none =>
          rw [hp] at h
          simp at h
          obtain ⟨h1, h2⟩ := h
          subst h2
          exact List.nil_sublist _
      | some pr =>
          obtain ⟨m, r⟩ := pr
          rw [hp] at h
          by_cases hb : ble x.2 m.2
          · simp [hb] at h
            obtain ⟨h1, h2⟩ := h
            subst h2
            exact List.sublist_cons_self x xs
          · simp [hb] at h
            obtain ⟨h1, h2⟩ := h
            subst h2
            exact List.Sublist.cons₂ x (ih hp)

theorem popMin_lookup_ne : ∀ {l : List (Int × BastPriorityValue)}
    {e : Int × BastPriorityValue} {rest : List (Int × BastPriorityValue)},
    popMin l = some (e, rest) → ∀ x, x ≠ e.1 → alookup rest x = alookup l x := by
  intro l
  induction l with
  | nil => intro e rest h; simp [popMin] at h
  | cons y xs ih =>
      intro e rest h x hx
      simp only [popMin] at h
      cases hp : popMin xs with
      | none =>
          rw [hp] at h
          simp at h
          obtain ⟨h1, h2⟩ := h
          subst h1
          subst h2
          obtain ⟨a, b⟩ := y
          have ha : a ≠ x := fun hax => hx hax.symm
          rw [popMin_eq_none hp]
          simp [alookup, ha]
      | some pr =>
          obtain ⟨m, r⟩ := pr
          rw [hp] at h
          by_cases hb : ble y.2 m.2
          · simp [hb] at h
            obtain ⟨h1, h2⟩ := h
            subst h1
            subst h2
            obtain ⟨a, b⟩ := y
            have ha : a ≠ x := fun hax => hx hax.symm
            simp [alookup, ha]
          · simp [hb] at h
            obtain ⟨h1, h2⟩ := h
            subst h1
            subst h2
            obtain ⟨a, b⟩ := y
            by_cases hax : a = x
            · simp [alookup, hax]
            · simp only [alookup, if_neg hax]
              exact ih hp x hx

theorem popMin_lookup_self : ∀ {l : List (Int × BastPriorityValue)}
    {e : Int × BastPriorityValue} {rest : List (Int × BastPriorityValue)},
    (l.map Prod.fst).Nodup → popMin l = some (e, rest) → alookup rest e.1 = none := by
  intro l
  induction l with
  | nil => intro e rest _ h; simp [popMin] at h
  | cons y xs ih =>
      intro e rest hnd h
      simp only [List.map_cons, List.nodup_cons] at hnd
      simp only [popMin] at h
      cases hp : popMin xs with
      | none =>
          rw [hp] at h
          simp at h
          obtain ⟨h1, h2⟩ := h
          subst h2
          rfl
      | some pr =>
          obtain ⟨m, r⟩ := pr
          rw [hp] at h
          by_cases hb : ble y.2 m.2
          · simp [hb] at h
            obtain ⟨h1, h2⟩ := h
            subst h1
            subst h2
            exact alookup_eq_none_of_not_mem hnd.1
          · simp [hb] at h
            obtain ⟨h1, h2⟩ := h
            subst h1
            subst h2
            have hm : m ∈ xs := popMin_mem hp
            have hym : y.1 ≠ m.1 := fun hcontra =>
              hnd.1 (hcontra ▸ List.mem_map.mpr ⟨m, hm, rfl⟩)
            obtain ⟨a, b⟩ := y
            simp only [alookup, if_neg hym]
            exact ih hnd.2 hp

theorem foldr_touch_mem {q : Int × Nat} {p : Int × List (Int × Nat)} :
    ∀ (l : List (Int × List (Int × Nat))), p ∈ l → q ∈ p.2 →
    q.1 ∈ l.foldr (fun e acc => e.1 :: e.2.map Prod.fst ++ acc) [] := by
  intro l
  induction l with
  | nil => intro h; simp at h
  | cons e rest ih =>
      intro hp hq
      simp only [List.foldr_cons]
      rcases List.mem_cons.mp hp with h1 | h1
      · subst h1
        exact List.mem_cons_of_mem _
          (List.mem_append.mpr (Or.inl (List.mem_map.mpr ⟨q, hq, rfl⟩)))
      · exact List.mem_cons_of_mem _ (List.mem_append.mpr (Or.inr (ih h1 hq)))

theorem touched_src (g : RoadNetwork) (s : Int) : s ∈ touched g s :=
  List.mem_cons_self _ _

theorem touched_inner {g : RoadNetwork} {s : Int} {p : Int × List (Int × Nat)}
    {q : Int × Nat} (hp : p ∈ g.edges) (hq : q ∈ p.2) : q.1 ∈ touched g s :=
  List.mem_cons_of_mem _ (foldr_touch_mem g.edges hp hq)

theorem foldr_max_le_acc : ∀ (l : List (Int × Nat)) (acc : Nat),
    acc ≤ l.foldr (fun q a2 => max q.2 a2) acc := by
  intro l
  induction l with
  | nil => intro acc; exact Nat.le_refl acc
  | cons e rest ih =>
      intro acc
      exact Nat.le_trans (ih acc) (Nat.le_max_right _ _)

theorem foldr_max_mem {q : Int × Nat} :
    ∀ {l : List (Int × Nat)} (acc : Nat), q ∈ l →
    q.2 ≤ l.foldr (fun q a2 => max q.2 a2) acc := by
  intro l
  induction l with
  | nil => intro acc h; simp at h
  | cons e rest ih =>
      intro acc hq
      rcases List.mem_cons.mp hq with h1 | h1
      · subst h1
        exact Nat.le_max_left _ _
      · exact Nat.le_trans (ih acc h1) (Nat.le_max_right _ _)

theorem maxEdgeCost_mem {g : RoadNetwork} {p : Int × List (Int × Nat)}
    {q : Int × Nat} (hp : p ∈ g.edges) (hq : q ∈ p.2) : q.2 ≤ maxEdgeCost g := by
  unfold maxEdgeCost
  revert hp
  generalize g.edges = l
  induction l with
  | nil => intro h; simp at h
  | cons e rest ih =>
      intro hp
      rcases List.mem_cons.mp hp with h1 | h1
      · subst h1
        exact foldr_max_mem _ hq
      · exact Nat.le_trans (ih h1) (foldr_max_le_acc _ _)

theorem keys_length_le {d : List Int} {L : List Int}
    (hnd : d.Nodup) (hsub : ∀ x ∈ d, x ∈ L) : d.length ≤ L.length := by
  have h1 : d.toFinset.card = d.length := List.toFinset_card_of_nodup hnd
  have h2 : d.toFinset ⊆ L.toFinset := by
    intro x hx
    rw [List.mem_toFinset] at hx ⊢
    exact hsub x hx
  calc d.length = d.toFinset.card := h1.symm
    _ ≤ L.toFinset.card := Finset.card_le_card h2
    _ ≤ L.length := List.toFinset_card_le L

/-! ### Single-step lemmas for `relaxEdge` -/

theorem add_some_some (a b : Nat) :
    add (Some a) (Some b) = Some ((a + b) % U32) := rfl

theorem mod_lt_u32 (n : Nat) : n % U32 < U32 :=
  Nat.mod_lt n (by decide)

theorem distOf_eq_of_lookup {d : List (Int × BastPriorityValue)} {v : Int}
    {p : BastPriorityValue} (h : alookup d v = some p) : distOf d v = p := by
  simp [distOf, h]

theorem relaxEdge_neg {h : Option HeuristicTable} {u : Int} {st : SearchState}
    {q : Int × Nat}
    (hc : blt (add (distOf st.dist u) (Some q.2)) (distOf st.dist q.1) = false) :
    relaxEdge h u st q = st := by
  unfold relaxEdge
  simp [hc]

theorem relaxEdge_pos {h : Option HeuristicTable} {u : Int} {st : SearchState}
    {q : Int × Nat}
    (hc : blt (add (distOf st.dist u) (Some q.2)) (distOf st.dist q.1) = true) :
    relaxEdge h u st q =
      { pq := ainsert st.pq q.1
          (queueVal h (add (distOf st.dist u) (Some q.2)) q.1)
        dist := ainsert st.dist q.1 (add (distOf st.dist u) (Some q.2))
        prev := ainsert st.prev q.1 (some u) } := by
  unfold relaxEdge
  simp [hc]

/-- If the relaxation guard fires, the popped node's stored distance is a
finite value `cu` and the tentative distance is `Some ((cu + w) % U32)`. -/
theorem guard_finite {d : List (Int × BastPriorityValue)} {u : Int} {w : Nat}
    {dv : BastPriorityValue}
    (hc : blt (add (distOf d u) (Some w)) dv = true) :
    ∃ cu, alookup d u = some (Some cu) ∧
      add (distOf d u) (Some w) = Some ((cu + w) % U32) := by
  cases hl : alookup d u with
  | none =>
      have hd : distOf d u = Infinity := by simp [distOf, hl]
      rw [hd] at hc
      simp [add, blt] at hc
  | some p =>
      cases p with
      | Infinity =>
          rw [distOf_eq_of_lookup hl] at hc
          simp [add, blt] at hc
      | Some cu =>
          refine ⟨cu, rfl, ?_⟩
          simp [distOf, hl, add]

/-- If the guard does not fire and the tentative distance is finite, the
target already stores a finite distance no larger than the tentative one. -/
theorem guard_false_le {d : List (Int × BastPriorityValue)} {v : Int} {a : Nat}
    (hc : blt (Some a) (distOf d v) = false) :
    ∃ cv, alookup d v = some (Some cv) ∧ cv ≤ a := by
  cases hl : alookup d v with
  | none =>
      have : distOf d v = Infinity := by simp [distOf, hl]
      rw [this] at hc
      simp [blt] at hc
  | some p =>
      cases p with
      | Infinity =>
          rw [distOf_eq_of_lookup hl] at hc
          simp [blt] at hc
      | Some cv =>
          rw [distOf_eq_of_lookup hl] at hc
          simp [blt] at hc
          exact ⟨cv, rfl, hc⟩

theorem ainsert_length_ge {α : Type} (l : List (Int × α)) (k : Int) (v : α) :
    l.length ≤ (ainsert l k v).length := by
  induction l with
  | nil => simp [ainsert]
  | cons q rest ih =>
      obtain ⟨a, b⟩ := q
      by_cases hk : a = k
      · subst hk
        simp [ainsert]
      · simp only [ainsert, if_neg hk, List.length_cons]
        omega

theorem ainsert_length_none {α : Type} {l : List (Int × α)} {k : Int} (v : α)
    (h : alookup l k = none) : (ainsert l k v).length = l.length + 1 := by
  induction l with
  | nil => simp [ainsert]
  | cons q rest ih =>
      obtain ⟨a, b⟩ := q
      by_cases hk : a = k
      · subst hk
        simp [alookup] at h
      · simp only [alookup, if_neg hk] at h
        simp only [ainsert, if_neg hk, List.length_cons, ih h]

theorem relaxEdge_dist_lookup (h : Option HeuristicTable) (u : Int)
    (st : SearchState) (q : Int × Nat) (x : Int) :
    alookup (relaxEdge h u st q).dist x = alookup st.dist x ∨
    (x = q.1 ∧ ∃ cu a, alookup st.dist u = some (Some cu) ∧ a = (cu + q.2) % U32 ∧
      alookup (relaxEdge h u st q).dist x = some (Some a) ∧
      blt (Some a) (distOf st.dist x) = true) := by
  cases hc : blt (add (distOf st.dist u) (Some q.2)) (distOf st.dist q.1) with
  | false =>
      left
      rw [relaxEdge_neg hc]
  | true =>
      by_cases hx : x = q.1
      · subst hx
        rcases guard_finite hc with ⟨cu, hcu, halt⟩
        right
        refine ⟨rfl, cu, (cu + q.2) % U32, hcu, rfl, ?_, ?_⟩
        · simp only [relaxEdge_pos hc]
          rw [alookup_ainsert_self, halt]
        · rw [halt] at hc
          exact hc
      · left
        simp only [relaxEdge_pos hc]
        exact alookup_ainsert_ne _ _ _ _ hx

theorem relaxEdge_pq_lookup (h : Option HeuristicTable) (u : Int)
    (st : SearchState) (q : Int × Nat) (x : Int) :
    alookup (relaxEdge h u st q).pq x = alookup st.pq x ∨
    (x = q.1 ∧ (alookup (relaxEdge h u st q).pq x).isSome) := by
  cases hc : blt (add (distOf st.dist u) (Some q.2)) (distOf st.dist q.1) with
  | false =>
      left
      rw [relaxEdge_neg hc]
  | true =>
      by_cases hx : x = q.1
      · subst hx
        right
        refine ⟨rfl, ?_⟩
        simp only [relaxEdge_pos hc]
        rw [alookup_ainsert_self]
        rfl
      · left
        simp only [relaxEdge_pos hc]
        exact alookup_ainsert_ne _ _ _ _ hx

theorem relaxEdge_dist_mono (h : Option HeuristicTable) (u : Int)
    (st : SearchState) (q : Int × Nat) (x : Int) (cx : Nat)
    (hx : alookup st.dist x = some (Some cx)) :
    ∃ cx2, alookup (relaxEdge h u st q).dist x = some (Some cx2) ∧ cx2 ≤ cx := by
  rcases relaxEdge_dist_lookup h u st q x with heq | ⟨hxq, cu, a, hcu, ha, hlk, hblt⟩
  · exact ⟨cx, heq ▸ hx, Nat.le_refl cx⟩
  · refine ⟨a, hlk, ?_⟩
    rw [distOf_eq_of_lookup hx] at hblt
    simp [blt] at hblt
    omega

theorem relaxEdge_dist_isSome (h : Option HeuristicTable) (u : Int)
    (st : SearchState) (q : Int × Nat) (x : Int)
    (hx : (alookup st.dist x).isSome) :
    (alookup (relaxEdge h u st q).dist x).isSome := by
  rcases relaxEdge_dist_lookup h u st q x with heq | ⟨hxq, cu, a, hcu, ha, hlk, hblt⟩
  · rw [heq]; exact hx
  · rw [hlk]; rfl

theorem relaxEdge_fin {h : Option HeuristicTable} {u : Int} {st : SearchState}
    {q : Int × Nat}
    (hfin : ∀ v p, alookup st.dist v = some p → p ≠ Infinity) :
    ∀ v p, alookup (relaxEdge h u st q).dist v = some p → p ≠ Infinity := by
  intro v p hv
  rcases relaxEdge_dist_lookup h u st q v with heq | ⟨hxq, cu, a, hcu, ha, hlk, hblt⟩
  · exact hfin v p (heq ▸ hv)
  · rw [hlk] at hv
    cases hv
    simp

theorem relaxEdge_keysT {g : RoadNetwork} {s : Int} {h : Option HeuristicTable}
    {u : Int} {st : SearchState} {q : Int × Nat}
    (hkT : ∀ p ∈ st.dist, p.1 ∈ touched g s) (hq1 : q.1 ∈ touched g s) :
    ∀ p ∈ (relaxEdge h u st q).dist, p.1 ∈ touched g s := by
  cases hc : blt (add (distOf st.dist u) (Some q.2)) (distOf st.dist q.1) with
  | false =>
      rw [relaxEdge_neg hc]
      exact hkT
  | true =>
      intro p hp
      simp only [relaxEdge_pos hc] at hp
      rcases ainsert_keys_subset st.dist q.1 _ p hp with h1 | h1
      · rw [h1]; exact hq1
      · exact hkT p h1

theorem relaxEdge_distNodup {h : Option HeuristicTable} {u : Int}
    {st : SearchState} {q : Int × Nat}
    (hnd : (st.dist.map Prod.fst).Nodup) :
    ((relaxEdge h u st q).dist.map Prod.fst).Nodup := by
  cases hc : blt (add (distOf st.dist u) (Some q.2)) (distOf st.dist q.1) with
  | false => rw [relaxEdge_neg hc]; exact hnd
  | true =>
      simp only [relaxEdge_pos hc]
      exact ainsert_map_fst_nodup _ _ hnd

theorem relaxEdge_pqNodup {h : Option HeuristicTable} {u : Int}
    {st : SearchState} {q : Int × Nat}
    (hnd : (st.pq.map Prod.fst).Nodup) :
    ((relaxEdge h u st q).pq.map Prod.fst).Nodup := by
  cases hc : blt (add (distOf st.dist u) (Some q.2)) (distOf st.dist q.1) with
  | false => rw [relaxEdge_neg hc]; exact hnd
  | true =>
      simp only [relaxEdge_pos hc]
      exact ainsert_map_fst_nodup _ _ hnd

theorem relaxEdge_pqDist {h : Option HeuristicTable} {u : Int}
    {st : SearchState} {q : Int × Nat}
    (hpd : ∀ x, (alookup st.pq x).isSome → (alookup st.dist x).isSome) :
    ∀ x, (alookup (relaxEdge h u st q).pq x).isSome →
      (alookup (relaxEdge h u st q).dist x).isSome := by
  intro x hx
  rcases relaxEdge_pq_lookup h u st q x with heq | ⟨hxq, _⟩
  · rw [heq] at hx
    exact relaxEdge_dist_isSome h u st q x (hpd x hx)
  · subst hxq
    cases hc : blt (add (distOf st.dist u) (Some q.2)) (distOf st.dist q.1) with
    | false =>
        rw [relaxEdge_neg hc] at hx ⊢
        exact hpd q.1 hx
    | true =>
        simp only [relaxEdge_pos hc]
        rw [alookup_ainsert_self]
        rfl

theorem walk_snoc {g : RoadNetwork} {s u v : Int} {c w : Nat}
    (hw : Walk g s u c) (he : edgeCost g u v = some w) : Walk g s v (c + w) := by
  have hone : Walk g u v (w + 0) := Walk.cons he (Walk.nil v)
  rw [Nat.add_zero] at hone
  exact walk_concat hw hone

theorem relaxEdge_settledExcept {g : RoadNetwork} {h : Option HeuristicTable}
    {u : Int} {st : SearchState} {q : Int × Nat}
    (hse : SettledExcept g st u) :
    SettledExcept g (relaxEdge h u st q) u := by
  cases hc : blt (add (distOf st.dist u) (Some q.2)) (distOf st.dist q.1) with
  | false =>
      rw [relaxEdge_neg hc]
      exact hse
  | true =>
      intro x cx hxu hdx hpqx l hl q2 hq2
      by_cases hxq : x = q.1
      · subst hxq
        simp only [relaxEdge_pos hc] at hpqx
        rw [alookup_ainsert_self] at hpqx
        cases hpqx
      · have hdx0 : alookup st.dist x = some (Some cx) := by
          simp only [relaxEdge_pos hc] at hdx
          rwa [alookup_ainsert_ne _ _ _ _ hxq] at hdx
        have hpq0 : alookup st.pq x = none := by
          simp only [relaxEdge_pos hc] at hpqx
          rwa [alookup_ainsert_ne _ _ _ _ hxq] at hpqx
        rcases hse x cx hxu hdx0 hpq0 l hl q2 hq2 with ⟨cv, hcv, hle⟩
        rcases relaxEdge_dist_mono h u st q q2.1 cv hcv with ⟨cv2, hcv2, hle2⟩
        exact ⟨cv2, hcv2, Nat.le_trans hle2 hle⟩

theorem relaxEdge_uclose {h : Option HeuristicTable} {u : Int}
    {st : SearchState} {q : Int × Nat} {processed : List (Int × Nat)}
    (huc : UClose st u processed) :
    UClose (relaxEdge h u st q) u (processed ++ [q]) := by
  cases hc : blt (add (distOf st.dist u) (Some q.2)) (distOf st.dist q.1) with
  | false =>
      rw [relaxEdge_neg hc]
      intro hpq
      rcases huc hpq with ⟨cu, hcu, hP⟩
      refine ⟨cu, hcu, ?_⟩
      intro q2 hq2
      rcases List.mem_append.mp hq2 with h1 | h1
      · exact hP q2 h1
      · rw [List.mem_singleton] at h1
        subst h1
        have halt : add (distOf st.dist u) (Some q2.2) = Some ((cu + q2.2) % U32) := by
          rw [distOf_eq_of_lookup hcu]
          rfl
        rw [halt] at hc
        rcases guard_false_le hc with ⟨cv, hcv, hle⟩
        exact ⟨cv, hcv, Nat.le_trans hle (Nat.mod_le _ _)⟩
  | true =>
      by_cases hqu : q.1 = u
      · intro hpq
        simp only [relaxEdge_pos hc] at hpq
        rw [← hqu] at hpq
        rw [alookup_ainsert_self] at hpq
        cases hpq
      · intro hpq
        simp only [relaxEdge_pos hc] at hpq
        rw [alookup_ainsert_ne _ _ _ _ (fun hh => hqu hh.symm)] at hpq
        rcases huc hpq with ⟨cu, hcu, hP⟩
        have hdu2 : alookup (relaxEdge h u st q).dist u = some (Some cu) := by
          simp only [relaxEdge_pos hc]
          rw [alookup_ainsert_ne _ _ _ _ (fun hh => hqu hh.symm)]
          exact hcu
        refine ⟨cu, hdu2, ?_⟩
        intro q2 hq2
        rcases List.mem_append.mp hq2 with h1 | h1
        · rcases hP q2 h1 with ⟨cv, hcv, hle⟩
          rcases relaxEdge_dist_mono h u st q q2.1 cv hcv with ⟨cv2, hcv2, hle2⟩
          exact ⟨cv2, hcv2, Nat.le_trans hle2 hle⟩
        · rw [List.mem_singleton] at h1
          subst h1
          have halt : add (distOf st.dist u) (Some q2.2) = Some ((cu + q2.2) % U32) := by
            rw [distOf_eq_of_lookup hcu]
            rfl
          refine ⟨(cu + q2.2) % U32, ?_, Nat.mod_le _ _⟩
          simp only [relaxEdge_pos hc]
          rw [alookup_ainsert_self, halt]

theorem relaxEdge_exact {g : RoadNetwork} {s : Int} {h : Option HeuristicTable}
    {u : Int} {st : SearchState} {q : Int × Nat} {l : List (Int × Nat)}
    (hnd : InnerNodup g) (hov : NoOverflow g s)
    (hl : alookup g.edges u = some l) (hq : q ∈ l)
    (hfin : ∀ v p, alookup st.dist v = some p → p ≠ Infinity)
    (hkT : ∀ p ∈ st.dist, p.1 ∈ touched g s)
    (hdnd : (st.dist.map Prod.fst).Nodup)
    (hsrc : alookup st.dist s = some (Some 0))
    (hlower : ∀ v c, alookup st.dist v = some (Some c) →
      ∃ cw, Walk g s v cw ∧ cw ≤ c)
    (hbound : ∀ v c, alookup st.dist v = some (Some c) →
      c ≤ maxEdgeCost g * st.dist.length) :
    alookup (relaxEdge h u st q).dist s = some (Some 0) ∧
    (∀ v c, alookup (relaxEdge h u st q).dist v = some (Some c) →
      ∃ cw, Walk g s v cw ∧ cw ≤ c) ∧
    (∀ v c, alookup (relaxEdge h u st q).dist v = some (Some c) →
      c ≤ maxEdgeCost g * (relaxEdge h u st q).dist.length) := by
  obtain ⟨qv, qw⟩ := q
  cases hc : blt (add (distOf st.dist u) (Some qw)) (distOf st.dist qv) with
  | false =>
      rw [relaxEdge_neg (q := (qv, qw)) hc]
      exact ⟨hsrc, hlower, hbound⟩
  | true =>
      rcases guard_finite hc with ⟨cu, hcu, halt⟩
      have hlen : st.dist.length ≤ (touched g s).length := by
        have hmap : st.dist.length = (st.dist.map Prod.fst).length := by simp
        rw [hmap]
        apply keys_length_le hdnd
        intro x hx
        rcases List.mem_map.mp hx with ⟨p, hp, hpx⟩
        rw [← hpx]
        exact hkT p hp
      have hw : qw ≤ maxEdgeCost g :=
        maxEdgeCost_mem (alookup_mem hl) hq
      have hcu_b : cu ≤ maxEdgeCost g * st.dist.length := hbound u cu hcu
      have hnw : cu + qw < U32 := by
        have h1 : cu + qw ≤ maxEdgeCost g * st.dist.length + maxEdgeCost g :=
          Nat.add_le_add hcu_b hw
        have h2 : maxEdgeCost g * st.dist.length + maxEdgeCost g =
            maxEdgeCost g * (st.dist.length + 1) := by ring
        have h3 : maxEdgeCost g * (st.dist.length + 1) ≤
            maxEdgeCost g * ((touched g s).length + 1) :=
          Nat.mul_le_mul_left _ (by omega)
        have h4 := hov
        unfold NoOverflow at h4
        omega
      have hmod : (cu + qw) % U32 = cu + qw := Nat.mod_eq_of_lt hnw
      have halt2 : add (distOf st.dist u) (Some qw) = Some (cu + qw) := by
        rw [halt, hmod]
      have hqs : qv ≠ s := by
        intro hcontra
        rw [halt2, hcontra, distOf_eq_of_lookup hsrc] at hc
        simp [blt] at hc
      have hedge : edgeCost g u qv = some qw := by
        unfold edgeCost
        rw [hl]
        exact alookup_of_mem_nodup (hnd (u, l) (alookup_mem hl)) hq
      refine ⟨?_, ?_, ?_⟩
      · simp only [relaxEdge_pos (q := (qv, qw)) hc]
        rw [alookup_ainsert_ne _ _ _ _ (fun hh => hqs hh.symm)]
        exact hsrc
      · intro v c hv
        by_cases hvq : v = qv
        · subst hvq
          simp only [relaxEdge_pos (q := (v, qw)) hc] at hv
          rw [alookup_ainsert_self, halt2] at hv
          simp at hv
          rcases hlower u cu hcu with ⟨cw, hwalk, hle⟩
          refine ⟨cw + qw, walk_snoc hwalk hedge, ?_⟩
          omega
        · simp only [relaxEdge_pos (q := (qv, qw)) hc] at hv
          rw [alookup_ainsert_ne _ _ _ _ hvq] at hv
          exact hlower v c hv
      · intro v c hv
        by_cases hvq : v = qv
        · subst hvq
          simp only [relaxEdge_pos (q := (v, qw)) hc] at hv ⊢
          rw [alookup_ainsert_self, halt2] at hv
          simp at hv
          cases hpres : alookup st.dist v with
          | some p =>
              have hlen_eq : (ainsert st.dist v
                  (add (distOf st.dist u) (Some qw))).length = st.dist.length :=
                ainsert_length_of_lookup_some _ (by rw [hpres]; rfl)
              rw [hlen_eq]
              cases p with
              | Infinity => exact absurd rfl (hfin v Infinity hpres)
              | Some cv =>
                  have hgb : cu + qw < cv := by
                    rw [halt2, distOf_eq_of_lookup hpres] at hc
                    simpa [blt] using hc
                  have hcvb := hbound v cv hpres
                  omega
          | none =>
              have hlen_eq : (ainsert st.dist v
                  (add (distOf st.dist u) (Some qw))).length = st.dist.length + 1 :=
                ainsert_length_none _ hpres
              rw [hlen_eq, Nat.mul_succ]
              omega
        · simp only [relaxEdge_pos (q := (qv, qw)) hc] at hv ⊢
          rw [alookup_ainsert_ne _ _ _ _ hvq] at hv
          have hcb := hbound v c hv
          have hge := ainsert_length_ge st.dist qv (add (distOf st.dist u) (Some qw))
          have := Nat.mul_le_mul_left (maxEdgeCost g) hge
          omega

/-! ### Folding a whole adjacency list -/

theorem BaseInv.toPre {g : RoadNetwork} {s : Int} {st : SearchState}
    (hb : BaseInv g s st) : PreInv g s st :=
  ⟨hb.fin, hb.srcP, hb.keysT, hb.distNodup, hb.pqNodup, hb.pqDist⟩

theorem relaxFold_base (g : RoadNetwork) (h : Option HeuristicTable) (s u : Int) :
    ∀ (l2 : List (Int × Nat)) (P : List (Int × Nat)) (st : SearchState),
      (∀ q ∈ l2, q.1 ∈ touched g s) →
      PreInv g s st → SettledExcept g st u → UClose st u P →
      PreInv g s (l2.foldl (relaxEdge h u) st) ∧
      SettledExcept g (l2.foldl (relaxEdge h u) st) u ∧
      UClose (l2.foldl (relaxEdge h u) st) u (P ++ l2) := by
  intro l2
  induction l2 with
  | nil =>
      intro P st _ hpre hse huc
      simpa using ⟨hpre, hse, huc⟩
  | cons q rest ih =>
      intro P st htch hpre hse huc
      simp only [List.foldl_cons]
      have hq1 : q.1 ∈ touched g s := htch q (List.mem_cons_self q rest)
      have hpre2 : PreInv g s (relaxEdge h u st q) :=
        { fin := relaxEdge_fin hpre.fin
          srcP := relaxEdge_dist_isSome h u st q s hpre.srcP
          keysT := relaxEdge_keysT hpre.keysT hq1
          distNodup := relaxEdge_distNodup hpre.distNodup
          pqNodup := relaxEdge_pqNodup hpre.pqNodup
          pqDist := relaxEdge_pqDist hpre.pqDist }
      have hres := ih (P ++ [q]) (relaxEdge h u st q)
        (fun q2 hq2 => htch q2 (List.mem_cons_of_mem _ hq2)) hpre2
        (relaxEdge_settledExcept hse) (relaxEdge_uclose huc)
      have hl : P ++ q :: rest = (P ++ [q]) ++ rest := by
        rw [List.append_assoc]
        rfl
      rw [hl]
      exact hres

theorem relaxFold_exact (g : RoadNetwork) (h : Option HeuristicTable) (s u : Int)
    {l : List (Int × Nat)} (hnd : InnerNodup g) (hov : NoOverflow g s)
    (hl : alookup g.edges u = some l) :
    ∀ (l2 : List (Int × Nat)) (st : SearchState),
      (∀ q ∈ l2, q ∈ l) →
      PreInv g s st →
      alookup st.dist s = some (Some 0) →
      (∀ v c, alookup st.dist v = some (Some c) → ∃ cw, Walk g s v cw ∧ cw ≤ c) →
      (∀ v c, alookup st.dist v = some (Some c) → c ≤ maxEdgeCost g * st.dist.length) →
      alookup (l2.foldl (relaxEdge h u) st).dist s = some (Some 0) ∧
      (∀ v c, alookup (l2.foldl (relaxEdge h u) st).dist v = some (Some c) →
        ∃ cw, Walk g s v cw ∧ cw ≤ c) ∧
      (∀ v c, alookup (l2.foldl (relaxEdge h u) st).dist v = some (Some c) →
        c ≤ maxEdgeCost g * (l2.foldl (relaxEdge h u) st).dist.length) := by
  intro l2
  induction l2 with
  | nil =>
      intro st _ _ hsrc hlow hbnd
      exact ⟨hsrc, hlow, hbnd⟩
  | cons q rest ih =>
      intro st hsub hpre hsrc hlow hbnd
      simp only [List.foldl_cons]
      have hq : q ∈ l := hsub q (List.mem_cons_self q rest)
      have hq1 : q.1 ∈ touched g s := touched_inner (alookup_mem hl) hq
      have hpre2 : PreInv g s (relaxEdge h u st q) :=
        { fin := relaxEdge_fin hpre.fin
          srcP := relaxEdge_dist_isSome h u st q s hpre.srcP
          keysT := relaxEdge_keysT hpre.keysT hq1
          distNodup := relaxEdge_distNodup hpre.distNodup
          pqNodup := relaxEdge_pqNodup hpre.pqNodup
          pqDist := relaxEdge_pqDist hpre.pqDist }
      have hstep := relaxEdge_exact (h := h) hnd hov hl hq
        hpre.fin hpre.keysT hpre.distNodup hsrc hlow hbnd
      exact ih (relaxEdge h u st q)
        (fun q2 hq2 => hsub q2 (List.mem_cons_of_mem _ hq2))
        hpre2 hstep.1 hstep.2.1 hstep.2.2

/-! ### One loop iteration and the loop induction -/

theorem mem_alookup_isSome {α : Type} {l : List (Int × α)} {e : Int × α}
    (h : e ∈ l) : (alookup l e.1).isSome := by
  induction l with
  | nil => simp at h
  | cons x xs ih =>
      obtain ⟨a, b⟩ := x
      by_cases hax : a = e.1
      · simp [alookup, hax]
      · rcases List.mem_cons.mp h with h1 | h1
        · exact absurd (congrArg Prod.fst h1).symm hax
        · simp only [alookup, if_neg hax]
          exact ih h1

theorem pop_preInv {g : RoadNetwork} {s : Int} {st : SearchState}
    (hbase : BaseInv g s st) {e : Int × BastPriorityValue}
    {pq2 : List (Int × BastPriorityValue)}
    (hpop : popMin st.pq = some (e, pq2)) :
    PreInv g s { st with pq := pq2 } := by
  refine ⟨hbase.fin, hbase.srcP, hbase.keysT, hbase.distNodup, ?_, ?_⟩
  · exact hbase.pqNodup.sublist ((popMin_sublist hpop).map Prod.fst)
  · intro x hx
    by_cases hxe : x = e.1
    · subst hxe
      rw [show ({ st with pq := pq2 } : SearchState).pq = pq2 from rfl,
        popMin_lookup_self hbase.pqNodup hpop] at hx
      cases hx
    · rw [show ({ st with pq := pq2 } : SearchState).pq = pq2 from rfl,
        popMin_lookup_ne hpop x hxe] at hx
      exact hbase.pqDist x hx

theorem step_base (g : RoadNetwork) (h : Option HeuristicTable) (s : Int)
    (st : SearchState) (hbase : BaseInv g s st) {e : Int × BastPriorityValue}
    {pq2 : List (Int × BastPriorityValue)}
    (hpop : popMin st.pq = some (e, pq2)) :
    BaseInv g s (relaxAll g h e.1 { st with pq := pq2 }) := by
  have hpre0 : PreInv g s { st with pq := pq2 } := pop_preInv hbase hpop
  have hse0 : SettledExcept g { st with pq := pq2 } e.1 := by
    intro x cx hxu hdx hpqx l hl q hq
    have hpq0 : alookup st.pq x = none := by
      rw [show ({ st with pq := pq2 } : SearchState).pq = pq2 from rfl,
        popMin_lookup_ne hpop x hxu] at hpqx
      exact hpqx
    exact hbase.settled x cx hdx hpq0 l hl q hq
  have huc0 : UClose { st with pq := pq2 } e.1 [] := by
    intro _
    have hsome : (alookup st.pq e.1).isSome := mem_alookup_isSome (popMin_mem hpop)
    have hdist : (alookup st.dist e.1).isSome := hbase.pqDist e.1 hsome
    cases hd : alookup st.dist e.1 with
    | none => rw [hd] at hdist; cases hdist
    | some p =>
        cases p with
        | Infinity => exact absurd rfl (hbase.fin e.1 Infinity hd)
        | Some cu => exact ⟨cu, rfl, by intro q hq; simp at hq⟩
  unfold relaxAll
  cases he : alookup g.edges e.1 with
  | none =>
      refine ⟨hpre0.fin, hpre0.srcP, hpre0.keysT, hpre0.distNodup, hpre0.pqNodup,
        hpre0.pqDist, ?_⟩
      intro x cx hdx hpqx l hl q hq
      by_cases hxe : x = e.1
      · subst hxe
        rw [hl] at he
        cases he
      · exact hse0 x cx hxe hdx hpqx l hl q hq
  | some nb =>
      have htch : ∀ q ∈ nb, q.1 ∈ touched g s :=
        fun q hq => touched_inner (alookup_mem he) hq
      rcases relaxFold_base g h s e.1 nb [] { st with pq := pq2 }
        htch hpre0 hse0 huc0 with ⟨hpre1, hse1, huc1⟩
      refine ⟨hpre1.fin, hpre1.srcP, hpre1.keysT, hpre1.distNodup, hpre1.pqNodup,
        hpre1.pqDist, ?_⟩
      intro x cx hdx hpqx l hl q hq
      by_cases hxe : x = e.1
      · subst hxe
        rw [hl] at he
        cases he
        rcases huc1 hpqx with ⟨cu, hcu, hP⟩
        have hcux : cu = cx := by
          rw [hdx] at hcu
          cases hcu
          rfl
        subst hcux
        simpa using hP q hq
      · exact hse1 x cx hxe hdx hpqx l hl q hq

theorem step_exact (g : RoadNetwork) (h : Option HeuristicTable) (s : Int)
    (st : SearchState) (hnd : InnerNodup g) (hov : NoOverflow g s)
    (hbase : BaseInv g s st) (hex : ExactInv g s st)
    {e : Int × BastPriorityValue} {pq2 : List (Int × BastPriorityValue)}
    (hpop : popMin st.pq = some (e, pq2)) :
    ExactInv g s (relaxAll g h e.1 { st with pq := pq2 }) := by
  have hpre0 : PreInv g s { st with pq := pq2 } := pop_preInv hbase hpop
  unfold relaxAll
  cases he : alookup g.edges e.1 with
  | none => exact ⟨hex.src0, hex.lower, hex.bound⟩
  | some nb =>
      rcases relaxFold_exact g h s e.1 hnd hov he nb { st with pq := pq2 }
        (fun q hq => hq) hpre0 hex.src0 hex.lower hex.bound with ⟨h1, h2, h3⟩
      exact ⟨h1, h2, h3⟩

theorem searchLoop_empty {g : RoadNetwork} {h : Option HeuristicTable} :
    ∀ {n : Nat} {st st2 : SearchState},
    searchLoop g h n st = some st2 → st2.pq = [] := by
  intro n
  induction n with
  | zero => intro st st2 hrun; simp [searchLoop] at hrun
  | succ n ih =>
      intro st st2 hrun
      simp only [searchLoop] at hrun
      cases hpop : popMin st.pq with
      | none =>
          rw [hpop] at hrun
          simp at hrun
          rw [← hrun]
          exact popMin_eq_none hpop
      | some pr =>
          obtain ⟨e, pq2⟩ := pr
          rw [hpop] at hrun
          exact ih hrun

theorem searchLoop_base (g : RoadNetwork) (h : Option HeuristicTable) (s : Int) :
    ∀ {n : Nat} {st st2 : SearchState},
    BaseInv g s st → searchLoop g h n st = some st2 → BaseInv g s st2 := by
  intro n
  induction n with
  | zero => intro st st2 _ hrun; simp [searchLoop] at hrun
  | succ n ih =>
      intro st st2 hbase hrun
      simp only [searchLoop] at hrun
      cases hpop : popMin st.pq with
      | none =>
          rw [hpop] at hrun
          simp at hrun
          rw [← hrun]
          exact hbase
      | some pr =>
          obtain ⟨e, pq2⟩ := pr
          rw [hpop] at hrun
          exact ih (step_base g h s st hbase hpop) hrun

theorem searchLoop_exact (g : RoadNetwork) (h : Option HeuristicTable) (s : Int)
    (hnd : InnerNodup g) (hov : NoOverflow g s) :
    ∀ {n : Nat} {st st2 : SearchState},
    BaseInv g s st → ExactInv g s st → searchLoop g h n st = some st2 →
    ExactInv g s st2 := by
  intro n
  induction n with
  | zero => intro st st2 _ _ hrun; simp [searchLoop] at hrun
  | succ n ih =>
      intro st st2 hbase hex hrun
      simp only [searchLoop] at hrun
      cases hpop : popMin st.pq with
      | none =>
          rw [hpop] at hrun
          simp at hrun
          rw [← hrun]
          exact hex
      | some pr =>
          obtain ⟨e, pq2⟩ := pr
          rw [hpop] at hrun
          exact ih (step_base g h s st hbase hpop)
            (step_exact g h s st hnd hov hbase hex hpop) hrun

/-! ### Termination: the loop measure strictly decreases -/

theorem map_sum_le_pointwise {L : List Int} {f f2 : Int → Nat}
    (hp : ∀ x ∈ L, f2 x ≤ f x) : (L.map f2).sum ≤ (L.map f).sum := by
  induction L with
  | nil => simp
  | cons x rest ih =>
      simp only [List.map_cons, List.sum_cons]
      have h1 := hp x (List.mem_cons_self x rest)
      have h2 := ih (fun y hy => hp y (List.mem_cons_of_mem _ hy))
      omega

theorem map_sum_lt_mem {L : List Int} {f f2 : Int → Nat} {v : Int}
    (hv : v ∈ L) (hp : ∀ x ∈ L, f2 x ≤ f x) (hlt : f2 v < f v) :
    (L.map f2).sum + 1 ≤ (L.map f).sum := by
  induction L with
  | nil => simp at hv
  | cons x rest ih =>
      simp only [List.map_cons, List.sum_cons]
      rcases List.mem_cons.mp hv with h1 | h1
      · subst h1
        have h2 := map_sum_le_pointwise (fun y hy => hp y (List.mem_cons_of_mem _ hy))
        omega
      · have h2 := ih h1 (fun y hy => hp y (List.mem_cons_of_mem _ hy))
        have h3 := hp x (List.mem_cons_self x rest)
        omega

theorem relaxEdge_measure {g : RoadNetwork} {s : Int} {h : Option HeuristicTable}
    {u : Int} {st : SearchState} {q : Int × Nat} (hq1 : q.1 ∈ touched g s) :
    searchMeasure g s (relaxEdge h u st q) ≤ searchMeasure g s st := by
  cases hc : blt (add (distOf st.dist u) (Some q.2)) (distOf st.dist q.1) with
  | false =>
      rw [relaxEdge_neg hc]
  | true =>
      rcases guard_finite hc with ⟨cu, hcu, halt⟩
      have ha_lt : (cu + q.2) % U32 < U32 := mod_lt_u32 _
      have hnew : alookup (relaxEdge h u st q).dist q.1 =
          some (Some ((cu + q.2) % U32)) := by
        simp only [relaxEdge_pos hc]
        rw [alookup_ainsert_self, halt]
      have hstrict : distVal (relaxEdge h u st q).dist q.1 < distVal st.dist q.1 := by
        unfold distVal
        rw [hnew]
        cases hold : alookup st.dist q.1 with
        | none =>
            simp only
            omega
        | some p =>
            cases p with
            | Infinity =>
                simp only
                omega
            | Some cv =>
                rw [halt, distOf_eq_of_lookup hold] at hc
                simp [blt] at hc
                simp only
                omega
      have hpoint : ∀ x ∈ touched g s,
          distVal (relaxEdge h u st q).dist x ≤ distVal st.dist x := by
        intro x _
        by_cases hx : x = q.1
        · rw [hx]
          exact Nat.le_of_lt hstrict
        · unfold distVal
          have heq : alookup (relaxEdge h u st q).dist x = alookup st.dist x := by
            simp only [relaxEdge_pos hc]
            exact alookup_ainsert_ne _ _ _ _ hx
          rw [heq]
      have hsum := map_sum_lt_mem hq1 hpoint hstrict
      have hpql : (relaxEdge h u st q).pq.length ≤ st.pq.length + 1 := by
        simp only [relaxEdge_pos hc]
        exact ainsert_length_le _ _ _
      unfold searchMeasure
      omega

theorem relaxFold_measure (g : RoadNetwork) (s : Int) (h : Option HeuristicTable)
    (u : Int) :
    ∀ (l2 : List (Int × Nat)) (st : SearchState),
    (∀ q ∈ l2, q.1 ∈ touched g s) →
    searchMeasure g s (l2.foldl (relaxEdge h u) st) ≤ searchMeasure g s st := by
  intro l2
  induction l2 with
  | nil => intro st _; exact Nat.le_refl _
  | cons q rest ih =>
      intro st htch
      simp only [List.foldl_cons]
      have h1 := @relaxEdge_measure g s h u st q (htch q (List.mem_cons_self q rest))
      have h2 := ih (relaxEdge h u st q)
        (fun q2 hq2 => htch q2 (List.mem_cons_of_mem _ hq2))
      omega

theorem relaxAll_measure (g : RoadNetwork) (s : Int) (h : Option HeuristicTable)
    (u : Int) (st : SearchState) :
    searchMeasure g s (relaxAll g h u st) ≤ searchMeasure g s st := by
  unfold relaxAll
  cases he : alookup g.edges u with
  | none => exact Nat.le_refl _
  | some nb =>
      show searchMeasure g s (nb.foldl (relaxEdge h u) st) ≤ searchMeasure g s st
      exact relaxFold_measure g s h u nb st
        (fun q hq => touched_inner (alookup_mem he) hq)

theorem searchLoop_term (g : RoadNetwork) (h : Option HeuristicTable) (s : Int) :
    ∀ (n : Nat) (st : SearchState), searchMeasure g s st < n →
    ∃ st2, searchLoop g h n st = some st2 := by
  intro n
  induction n with
  | zero => intro st hm; cases hm
  | succ n ih =>
      intro st hm
      simp only [searchLoop]
      cases hpop : popMin st.pq with
      | none => exact ⟨st, rfl⟩
      | some pr =>
          obtain ⟨e, pq2⟩ := pr
          have hlen := popMin_length hpop
          have hm0 : searchMeasure g s { st with pq := pq2 } + 1 =
              searchMeasure g s st := by
            unfold searchMeasure
            simp only
            omega
          have hra := relaxAll_measure g s h e.1 { st with pq := pq2 }
          exact ih (relaxAll g h e.1 { st with pq := pq2 }) (by omega)

theorem fuel_sufficient (g : RoadNetwork) (h : Option HeuristicTable) (s : Int) :
    ∃ st2, searchLoop g h (fuelFor g h s) (initState g h s) = some st2 ∧
      st2.pq = [] := by
  rcases searchLoop_term g h s (fuelFor g h s) (initState g h s)
    (Nat.lt_succ_self _) with ⟨st2, hst2⟩
  exact ⟨st2, hst2, searchLoop_empty hst2⟩

/-! ### Initial state invariants and the final assembly -/

theorem initState_base (g : RoadNetwork) (h : Option HeuristicTable) (s : Int)
    (hik : initDistVal h s ≠ Infinity) : BaseInv g s (initState g h s) := by
  refine ⟨?_, ?_, ?_, ?_, ?_, ?_, ?_⟩
  · intro v p hv
    simp only [initState, alookup] at hv
    by_cases hsv : s = v
    · rw [if_pos hsv] at hv
      cases hv
      exact hik
    · rw [if_neg hsv] at hv
      cases hv
  · simp [initState, alookup]
  · intro p hp
    simp only [initState] at hp
    rcases List.mem_singleton.mp hp with rfl
    exact touched_src g s
  · simp [initState]
  · simp [initState]
  · intro x hx
    simp only [initState, alookup] at hx ⊢
    by_cases hsx : s = x
    · simp [hsx]
    · rw [if_neg hsx] at hx
      cases hx
  · intro u cu hdu hpq
    simp only [initState, alookup] at hdu hpq
    by_cases hsu : s = u
    · rw [if_pos hsu] at hpq
      cases hpq
    · rw [if_neg hsu] at hdu
      cases hdu

theorem initState_exact (g : RoadNetwork) (s : Int) :
    ExactInv g s (initState g none s) := by
  refine ⟨?_, ?_, ?_⟩
  · simp [initState, alookup, initDistVal]
  · intro v c hv
    simp only [initState, alookup, initDistVal] at hv
    by_cases hsv : s = v
    · rw [if_pos hsv] at hv
      cases hv
      exact ⟨0, hsv ▸ Walk.nil s, Nat.le_refl 0⟩
    · rw [if_neg hsv] at hv
      cases hv
  · intro v c hv
    simp only [initState, alookup, initDistVal] at hv
    by_cases hsv : s = v
    · rw [if_pos hsv] at hv
      cases hv
      exact Nat.zero_le _
    · rw [if_neg hsv] at hv
      cases hv

/-- At loop exit the queue is empty, so every stored node is settled; walking
from any stored node can only increase the stored distance by the walk cost. -/
theorem final_upper {g : RoadNetwork} {s : Int} {st2 : SearchState}
    (hbase : BaseInv g s st2) (hempty : st2.pq = []) :
    ∀ {a : Int} {v : Int} {c : Nat}, Walk g a v c → ∀ ca,
      alookup st2.dist a = some (Some ca) →
      ∃ cv, alookup st2.dist v = some (Some cv) ∧ cv ≤ ca + c := by
  intro a v c hw
  induction hw with
  | nil u =>
      intro ca ha
      exact ⟨ca, ha, by omega⟩
  | cons he hw2 ih =>
      intro ca ha
      rename_i u v2 t w c2
      have hpq : alookup st2.pq u = none := by
        rw [hempty]
        rfl
      have hl : ∃ l, alookup g.edges u = some l ∧ (v2, w) ∈ l := by
        unfold edgeCost at he
        cases hel : alookup g.edges u with
        | none => rw [hel] at he; cases he
        | some l =>
            rw [hel] at he
            exact ⟨l, rfl, alookup_mem he⟩
      rcases hl with ⟨l, hel, hmem⟩
      rcases hbase.settled u ca ha hpq l hel (v2, w) hmem with ⟨cv2, hdv2, hle2⟩
      rcases ih cv2 hdv2 with ⟨cv, hcv, hle⟩
      exact ⟨cv, hcv, by omega⟩

/-- C1 (amended): with no heuristic attached and under the no-overflow bound
`maxEdgeCost g * (|touched| + 1) < 2^32` (and `HashMap`-style distinct inner
keys), `compute_shortest_path` returns exactly the true shortest-walk cost:
`Infinity` precisely for unreachable targets, and for a finite result `Some c`
there is a walk of cost `c` and no cheaper walk.  The wrapping `u32` addition
never fires under the bound; `claim1_counterexample` shows the claim is false
without it. -/
theorem claim1_search_returns_shortest (g : RoadNetwork) (s t : Int)
    (hnd : InnerNodup g) (hov : NoOverflow g s) :
    ((compute_shortest_path g none s t).1 = Infinity → ∀ c, ¬ Walk g s t c) ∧
    (∀ c, (compute_shortest_path g none s t).1 = Some c →
      Walk g s t c ∧ ∀ c2, Walk g s t c2 → c ≤ c2) := by
  rcases fuel_sufficient g none s with ⟨st2, hrun, hempty⟩
  have hik : initDistVal none s ≠ Infinity := by
    simp [initDistVal]
  have hbase0 := initState_base g none s hik
  have hbase := searchLoop_base g none s hbase0 hrun
  have hex := searchLoop_exact g none s hnd hov hbase0 (initState_exact g s) hrun
  have hcost : (compute_shortest_path g none s t).1 =
      (match alookup st2.dist t with
       | some target_cost => target_cost
       | none => Infinity) := by
    unfold compute_shortest_path
    rw [hrun]
  constructor
  · intro hinf c hw
    rcases final_upper hbase hempty hw 0 hex.src0 with ⟨cv, hcv, _⟩
    rw [hcost] at hinf
    cases hlt : alookup st2.dist t with
    | none => rw [hlt] at hcv; cases hcv
    | some p =>
        rw [hlt] at hinf hcv
        simp at hinf
        rw [hinf] at hcv
        cases hcv
  · intro c hc
    rw [hcost] at hc
    cases hlt : alookup st2.dist t with
    | none =>
        rw [hlt] at hc
        cases hc
    | some p =>
        rw [hlt] at hc
        simp at hc
        rw [hc] at hlt
        have hmin : ∀ c2, Walk g s t c2 → c ≤ c2 := by
          intro c2 hw2
          rcases final_upper hbase hempty hw2 0 hex.src0 with ⟨cv, hcv, hle⟩
          rw [hlt] at hcv
          have : cv = c := by
            cases hcv
            rfl
          omega
        rcases hex.lower t c hlt with ⟨cw, hwalk, hle⟩
        have hcw : c ≤ cw := hmin cw hwalk
        have : cw = c := by omega
        rw [this] at hwalk
        exact ⟨hwalk, hmin⟩

/-- Witness for the amended C1 theorem at the spec concrete scenario G1
(A,B,C,D as 1,2,3,4): the hypotheses hold by evaluation, `search(A,C)` is 7
and `search(A,D)` is 9, and the theorem yields minimality of the returned
cost. -/
theorem claim1_witness :
    (compute_shortest_path G1 none 1 3).1 = Some 7 ∧
    (compute_shortest_path G1 none 1 4).1 = Some 9 ∧
    (∀ c, (compute_shortest_path G1 none 1 3).1 = Some c →
      Walk G1 1 3 c ∧ ∀ c2, Walk G1 1 3 c2 → c ≤ c2) :=
  ⟨by decide, by decide,
    (claim1_search_returns_shortest G1 1 3
      (by unfold InnerNodup; decide) (by unfold NoOverflow; decide)).2⟩

theorem gwrap_edge_min {u v : Int} {w : Nat}
    (h : edgeCost GWrap u v = some w) : 2 ^ 31 ≤ w := by
  rcases edgeCost_mem h with ⟨p, hp, hu, hq⟩
  have hall : ∀ p ∈ GWrap.edges, ∀ q ∈ p.2, 2 ^ 31 ≤ q.2 := by decide
  exact hall p hp (v, w) hq

/-- C1 as stated is false: on the chain `GWrap` (1-2-3, both edges costing
`2^31`) the wrapping addition folds the true cost `2^32` to 0, so the search
returns `Some 0` although node 3 is reachable and every walk from 1 to 3
costs at least `2^31`. -/
theorem claim1_counterexample :
    (compute_shortest_path GWrap none 1 3).1 = Some 0 ∧
    Walk GWrap 1 3 (2 ^ 31 + 2 ^ 31) ∧
    (∀ c, Walk GWrap 1 3 c → 2 ^ 31 ≤ c) := by
  refine ⟨by decide, ?_, ?_⟩
  · have h12 : edgeCost GWrap 1 2 = some (2 ^ 31) := by decide
    have h23 : edgeCost GWrap 2 3 = some (2 ^ 31) := by decide
    have hwk : Walk GWrap 1 3 (2 ^ 31 + (2 ^ 31 + 0)) :=
      Walk.cons h12 (Walk.cons h23 (Walk.nil 3))
    simpa using hwk
  · intro c hw
    cases hw with
    | cons he hw2 =>
        have := gwrap_edge_min he
        omega

/-- C10: (a) the loop always terminates: the proven-sufficient fuel reaches
the empty queue; (b) a target of `-1` (indeed, any target: the loop never
reads the target) exhausts the reachable set: every node with a walk from the
source ends with a finite stored distance.  The hypothesis asks that the
initial value stored for the source is finite; it holds for plain searches
and for every heuristic table `transform_landmark_db_into_heuristic`
produces, whose values are all finite. -/
theorem claim10_terminates_and_exhausts (g : RoadNetwork)
    (heuristic : Option HeuristicTable) (s : Int)
    (hik : initDistVal heuristic s ≠ Infinity) :
    (∃ st2, searchLoop g heuristic (fuelFor g heuristic s)
        (initState g heuristic s) = some st2 ∧ st2.pq = []) ∧
    (∀ v c, Walk g s v c →
      ∃ cv, alookup (compute_shortest_path g heuristic s (-1)).2 v
        = some (Some cv)) := by
  refine ⟨fuel_sufficient g heuristic s, ?_⟩
  rcases fuel_sufficient g heuristic s with ⟨st2, hrun, hempty⟩
  have hbase := searchLoop_base g heuristic s (initState_base g heuristic s hik) hrun
  have hdist : (compute_shortest_path g heuristic s (-1)).2 = st2.dist := by
    unfold compute_shortest_path
    rw [hrun]
  intro v c hw
  have hsrc : ∃ c0, alookup st2.dist s = some (Some c0) := by
    have h1 := hbase.srcP
    cases hl : alookup st2.dist s with
    | none => rw [hl] at h1; cases h1
    | some p =>
        cases p with
        | Infinity => exact absurd rfl (hbase.fin s Infinity hl)
        | Some c0 => exact ⟨c0, rfl⟩
  rcases hsrc with ⟨c0, hc0⟩
  rcases final_upper hbase hempty hw c0 hc0 with ⟨cv, hcv, _⟩
  rw [hdist]
  exact ⟨cv, hcv⟩

/-- Witness for C10 at the concrete graph G1: the fuel reaches the empty
queue and every reachable node gets a finite distance. -/
theorem claim10_witness :
    (∃ st2, searchLoop G1 none (fuelFor G1 none 1)
        (initState G1 none 1) = some st2 ∧ st2.pq = []) ∧
    (∀ v c, Walk G1 1 v c →
      ∃ cv, alookup (compute_shortest_path G1 none 1 (-1)).2 v
        = some (Some cv)) :=
  claim10_terminates_and_exhausts G1 none 1 (by decide)
